import Mathlib

/-!
Shallow embedding of `inst/include/kdtools.h` (package kdtools): an implicit
k-d tree stored in-place in an array, with build (`kd_sort`), verifier
(`kd_is_sorted`), ordered queries (`kd_lower_bound`, `kd_upper_bound`,
`kd_binary_search`, `kd_equal_range`) and spatial queries
(`kd_nearest_neighbor`, `kd_range_query`, `knn` / `kd_nearest_neighbors`).

Modelling conventions:
* a point is a `List Int`; the arity `d` is carried explicitly and axis `i`
  is read with `getD i 0` (the source reads `get<I>` of a fixed-arity tuple);
* iterator ranges become lists plus indices; an iterator return value is the
  index into the list, with the list length playing the role of `last`;
* Euclidean distances: the source computes `l2dist = sqrt (sum_of_squares)`
  in `double` and only ever compares distances, so distances are modelled by
  the exact integer `sum_of_squares`; `sqrt` is strictly monotone on
  nonnegative reals, hence every comparison in the source agrees with the
  comparison of the squared values (likewise `dist_nth < r` iff
  `dist_nth^2 < r^2`);
* `std::nth_element` is specified only by its postcondition; it is modelled
  by a full sort with the predicate's induced weak order, which satisfies
  that postcondition, and `std::partition` by the stable `filter` split;
* recursion over subranges is expressed with an explicit fuel argument that
  strictly exceeds the list length (every recursive call is on a strictly
  shorter list), so all functions are structural and kernel-reducible.
-/

namespace Kdtools

abbrev Point := List Int

/-- `get<I>(p)`: axis access. -/
def axisVal (p : Point) (i : Nat) : Int := p.getD i 0

/-- `less_nth<I>`: single-axis strict comparison. -/
def lessNth (i : Nat) (a b : Point) : Bool := axisVal a i < axisVal b i

/-- `kd_less<I, K>`: cyclic lexicographic comparison starting at axis `i`,
with `k` axes already examined; after `d` axes the recursion stops
(`is_last`: `K = D - 1` compares the current axis only).  The first
argument is fuel, `d - k` at every call site, so the recursion is
structural. -/
def kdLessAux (d : Nat) : Nat → Nat → Nat → Point → Point → Bool
  | 0, _, i, a, b => decide (axisVal a i < axisVal b i)
  | f+1, k, i, a, b =>
    if d ≤ k + 1 then decide (axisVal a i < axisVal b i)
    else if axisVal a i = axisVal b i then
      kdLessAux d f (k+1) ((i+1) % d) a b
    else decide (axisVal a i < axisVal b i)

/-- `kd_less<I>` as used by the library (`K = 0`). -/
def kdLess (d i : Nat) (a b : Point) : Bool := kdLessAux d d 0 i a b

/-- The list of axes examined by `kd_less` from position `(k, i)` (same
fuel convention as `kdLessAux`). -/
def axisCycle (d : Nat) : Nat → Nat → Nat → List Nat
  | 0, _, i => [i]
  | f+1, k, i =>
    if d ≤ k + 1 then [i] else i :: axisCycle d f (k+1) ((i+1) % d)

/-- Plain lexicographic comparison along a list of axes (the last axis is
compared with `<` alone, mirroring the `is_last` template case). -/
def lexLess : List Nat → Point → Point → Bool
  | [], _, _ => false
  | [j], a, b => decide (axisVal a j < axisVal b j)
  | j :: j' :: js, a, b =>
    if axisVal a j = axisVal b j then lexLess (j' :: js) a b
    else decide (axisVal a j < axisVal b j)

/-- `all_less_<I>`: strictly less on every axis `I, I+1, …, D-1` (fuel
`d - i` at every call site). -/
def allLessAux (d : Nat) (a b : Point) : Nat → Nat → Bool
  | 0, i => decide (axisVal a i < axisVal b i)
  | f+1, i =>
    if d ≤ i + 1 then decide (axisVal a i < axisVal b i)
    else decide (axisVal a i < axisVal b i) && allLessAux d a b f (i+1)

/-- `all_less`. -/
def allLess (d : Nat) (a b : Point) : Bool := allLessAux d a b d 0

/-- `none_less_<I>`: `≥` on every axis `I, I+1, …, D-1` (fuel `d - i`). -/
def noneLessAux (d : Nat) (a b : Point) : Nat → Nat → Bool
  | 0, i => decide (axisVal b i ≤ axisVal a i)
  | f+1, i =>
    if d ≤ i + 1 then decide (axisVal b i ≤ axisVal a i)
    else decide (axisVal b i ≤ axisVal a i) && noneLessAux d a b f (i+1)

/-- `none_less`. -/
def noneLess (d : Nat) (a b : Point) : Bool := noneLessAux d a b d 0

/-- `within(value, lower, upper)`: half-open box membership. -/
def within (d : Nat) (v lo hi : Point) : Bool := noneLess d v lo && allLess d v hi

/-- `sum_of_squares_<I>`: sum over axes `I, …, D-1` of
`(diff_nth<I>(rhs, lhs))^2` (fuel `d - i`). -/
def sumOfSquaresAux (d : Nat) (a b : Point) : Nat → Nat → Int
  | 0, i => (axisVal b i - axisVal a i) ^ 2
  | f+1, i =>
    if d ≤ i + 1 then (axisVal b i - axisVal a i) ^ 2
    else (axisVal b i - axisVal a i) ^ 2 + sumOfSquaresAux d a b f (i+1)

/-- `sum_of_squares(lhs, rhs)`; `l2dist` is its square root, which is
order-isomorphic to it on nonnegative values. -/
def sumOfSquares (d : Nat) (a b : Point) : Int := sumOfSquaresAux d a b d 0

/-! Generic insertion sort used to realise the `std::nth_element`
postcondition deterministically. -/

/-- Insert `x` into `l` before the first element `y` with `le x y`. -/
def insertLe {α : Type} (le : α → α → Bool) (x : α) : List α → List α
  | [] => [x]
  | y :: ys => if le x y then x :: y :: ys else y :: insertLe le x ys

/-- Insertion sort by the boolean relation `le`. -/
def sortLe {α : Type} (le : α → α → Bool) : List α → List α
  | [] => []
  | x :: xs => insertLe le x (sortLe le xs)

/-- Model of `std::nth_element(first, first + n, last, pred)`: any
permutation placing the `n`-th order statistic at position `n` with nothing
greater (under `pred`) before it and nothing smaller after it.  A full sort
by the weak order `fun a b => ¬ pred b a` satisfies the postcondition. -/
def nthElement (pred : Point → Point → Bool) (_n : Nat) (xs : List Point) :
    List Point :=
  sortLe (fun a b => ! pred b a) xs

/-- `middle_of(first, last)`: the middle index of the range. -/
def middleOf (xs : List Point) : Nat := xs.length / 2

/-- `find_pivot<I>`: with `m` the middle index, the partition point of
`λ x, less_nth<I>(x, *m)` over `[first, m)`.  `std::partition_point`
requires the range to be partitioned, in which case it returns the length
of the maximal satisfying prefix, which is how it is modelled. -/
def find_pivot (i : Nat) (xs : List Point) : Nat :=
  ((xs.take (middleOf xs)).takeWhile
    (fun x => lessNth i x (xs.getD (middleOf xs) []))).length

/-- `std::is_partitioned`: every element satisfying `p` precedes every
element not satisfying it. -/
def isPartitioned {α : Type} (p : α → Bool) (xs : List α) : Bool :=
  (xs.dropWhile p).all (fun x => ! p x)

/-- `check_partition(first, pivot, last, pred)` with `P = *pivot`. -/
def check_partition (pred : Point → Point → Bool) (P : Point)
    (xs : List Point) : Bool :=
  isPartitioned (fun x => pred x P) xs

/-! The builder `kd_sort`.  One level: `nth_element` moves the middle-order
element `p` to the middle `m`; `adjust_pivot` re-partitions `[first, m)` by
`kd_less(·, p)`, so the elements of `[first, m)` not less than `p` (all of
them equivalent to `p`, hence equal to it on every axis) slide to positions
`[ret, m)`; the tree node is position `ret` and the two sides recurse on the
next axis. -/

/-- The element `*pivot` selected by `nth_element` at this level. -/
def sortPiv (d i : Nat) (xs : List Point) : Point :=
  (nthElement (kdLess d i) (middleOf xs) xs).getD (middleOf xs) []

/-- The left part `[first, ret)` after `adjust_pivot` (elements of
`[first, m)` that are `kd_less` than `*pivot`; `std::partition` keeps them,
in some order, before the rest). -/
def sortLeft (d i : Nat) (xs : List Point) : List Point :=
  ((nthElement (kdLess d i) (middleOf xs) xs).take (middleOf xs)).filter
    (fun x => kdLess d i x (sortPiv d i xs))

/-- The part `[ret, last)` after `adjust_pivot`: the non-less leftovers of
`[first, m)`, then `*pivot`, then `[m+1, last)`.  Its head is the element
at the adjusted pivot position. -/
def sortRest (d i : Nat) (xs : List Point) : List Point :=
  ((nthElement (kdLess d i) (middleOf xs) xs).take (middleOf xs)).filter
      (fun x => ! kdLess d i x (sortPiv d i xs))
    ++ sortPiv d i xs :: (nthElement (kdLess d i) (middleOf xs) xs).drop
        (middleOf xs + 1)

/-- `detail::kd_sort<I>` with fuel (the fuel always exceeds the range
length, and every recursive call is on a strictly shorter range). -/
def kd_sortF (d : Nat) : Nat → Nat → List Point → List Point
  | 0, _, xs => xs
  | n+1, i, xs =>
    if xs.length ≤ 1 then xs
    else
      kd_sortF d n ((i+1) % d) (sortLeft d i xs)
        ++ (sortRest d i xs).headD []
          :: kd_sortF d n ((i+1) % d) (sortRest d i xs).tail

/-- `kdtools::kd_sort` (top-level entry, axis 0 handled by callers passing
`i = 0`). -/
def kd_sort (d i : Nat) (xs : List Point) : List Point :=
  kd_sortF d (xs.length + 1) i xs

/-- `detail::kd_is_sorted<I>` with fuel. -/
def kd_is_sortedF (d : Nat) : Nat → Nat → List Point → Bool
  | 0, _, _ => true
  | n+1, i, xs =>
    if xs.length < 2 then true
    else
      check_partition (kdLess d i) (xs.getD (find_pivot i xs) []) xs
        && kd_is_sortedF d n ((i+1) % d) (xs.take (find_pivot i xs))
        && kd_is_sortedF d n ((i+1) % d) (xs.drop (find_pivot i xs + 1))

/-- `kdtools::kd_is_sorted`. -/
def kd_is_sorted (d i : Nat) (xs : List Point) : Bool :=
  kd_is_sortedF d (xs.length + 1) i xs

/-! Ordered queries.  Iterator results are indices into the current range;
the range length is `last`.  A recursive call on `[first, pivot)` returns
an index in `[0, pivot]`, a call on `(pivot, last)` an index in
`[pivot+1, last]` after offsetting, exactly mirroring the source's iterator
arithmetic — in particular a failed call on the left subrange returns the
pivot index itself, which the source then inspects.  The size ≤ 1 base case
of the source reads `*first` unconditionally; when `first = last` both of
its branches return the same iterator `first = last`, so the total model
returns `last` there without reading (the read is modelled separately by
`kd_lower_bound_checked` below). -/

/-- One node of `kd_lower_bound`: given the results `rl` of the left
recursion (an index in `[0, pivot]`, with `pivot` meaning failure of the
subrange whose `last` is the pivot) and `rr` of the right recursion
(relative to the subrange after the pivot), choose the returned iterator
exactly as the source does. -/
def lbStep (d i : Nat) (v : Point) (xs : List Point) (rl rr : Nat) : Nat :=
  if noneLess d (xs.getD (find_pivot i xs) []) v then rl
  else if allLess d (xs.getD (find_pivot i xs) []) v then
    find_pivot i xs + 1 + rr
  else
    if rl ≠ xs.length ∧ noneLess d (xs.getD rl []) v then rl
    else if find_pivot i xs + 1 + rr ≠ xs.length
        ∧ noneLess d (xs.getD (find_pivot i xs + 1 + rr) []) v then
      find_pivot i xs + 1 + rr
    else xs.length

/-- `detail::kd_lower_bound<I>` with fuel. -/
def kd_lower_boundF (d : Nat) : Nat → Nat → Point → List Point → Nat
  | 0, _, _, xs => xs.length
  | n+1, i, v, xs =>
    if xs.length ≤ 1 then
      if xs.length = 1 then (if noneLess d (xs.getD 0 []) v then 0 else 1)
      else 0
    else
      lbStep d i v xs
        (kd_lower_boundF d n ((i+1) % d) v (xs.take (find_pivot i xs)))
        (kd_lower_boundF d n ((i+1) % d) v (xs.drop (find_pivot i xs + 1)))

/-- `kdtools::kd_lower_bound`. -/
def kd_lower_bound (d i : Nat) (v : Point) (xs : List Point) : Nat :=
  kd_lower_boundF d (xs.length + 1) i v xs

/-- One node of `kd_upper_bound` (same conventions as `lbStep`). -/
def ubStep (d i : Nat) (v : Point) (xs : List Point) (rl rr : Nat) : Nat :=
  if allLess d v (xs.getD (find_pivot i xs) []) then rl
  else if noneLess d v (xs.getD (find_pivot i xs) []) then
    find_pivot i xs + 1 + rr
  else
    if rl ≠ xs.length ∧ allLess d v (xs.getD rl []) then rl
    else if find_pivot i xs + 1 + rr ≠ xs.length
        ∧ allLess d v (xs.getD (find_pivot i xs + 1 + rr) []) then
      find_pivot i xs + 1 + rr
    else xs.length

/-- `detail::kd_upper_bound<I>` with fuel. -/
def kd_upper_boundF (d : Nat) : Nat → Nat → Point → List Point → Nat
  | 0, _, _, xs => xs.length
  | n+1, i, v, xs =>
    if xs.length ≤ 1 then
      if xs.length = 1 then (if allLess d v (xs.getD 0 []) then 0 else 1)
      else 0
    else
      ubStep d i v xs
        (kd_upper_boundF d n ((i+1) % d) v (xs.take (find_pivot i xs)))
        (kd_upper_boundF d n ((i+1) % d) v (xs.drop (find_pivot i xs + 1)))

/-- `kdtools::kd_upper_bound`. -/
def kd_upper_bound (d i : Nat) (v : Point) (xs : List Point) : Nat :=
  kd_upper_boundF d (xs.length + 1) i v xs

/-- `kdtools::kd_binary_search`: lower bound, then
`first != last && none_less(value, *first)`. -/
def kd_binary_search (d : Nat) (v : Point) (xs : List Point) : Bool :=
  decide (kd_lower_bound d 0 v xs ≠ xs.length)
    && noneLess d v (xs.getD (kd_lower_bound d 0 v xs) [])

/-- `kdtools::kd_equal_range`: the pair (lower bound, upper bound). -/
def kd_equal_range (d : Nat) (v : Point) (xs : List Point) : Nat × Nat :=
  (kd_lower_bound d 0 v xs, kd_upper_bound d 0 v xs)

/-- Instrumented `kd_lower_bound` in which every element read goes through
`getElem?` relative to the current subrange; reaching a read outside
`[first, last)` — which the source performs as `*first` in the size ≤ 1
base case even when `first = last` — yields `none`. -/
def kd_lower_bound_checkedF (d : Nat) :
    Nat → Nat → Point → List Point → Option Nat
  | 0, _, _, _ => none
  | n+1, i, v, xs =>
    if xs.length ≤ 1 then
      match xs[0]? with
      | none => none
      | some x => some (if noneLess d x v then 0 else xs.length)
    else
      match xs[find_pivot i xs]? with
      | none => none
      | some P =>
        if noneLess d P v then
          kd_lower_bound_checkedF d n ((i+1) % d) v
            (xs.take (find_pivot i xs))
        else if allLess d P v then
          (kd_lower_bound_checkedF d n ((i+1) % d) v
            (xs.drop (find_pivot i xs + 1))).map (find_pivot i xs + 1 + ·)
        else
          match kd_lower_bound_checkedF d n ((i+1) % d) v
              (xs.take (find_pivot i xs)) with
          | none => none
          | some it =>
            if it ≠ xs.length ∧ (xs[it]?.map (noneLess d · v)).getD false
            then some it
            else
              match (kd_lower_bound_checkedF d n ((i+1) % d) v
                  (xs.drop (find_pivot i xs + 1))).map
                  (find_pivot i xs + 1 + ·) with
              | none => none
              | some it2 =>
                if it2 ≠ xs.length
                    ∧ (xs[it2]?.map (noneLess d · v)).getD false
                then some it2 else some xs.length

/-- Checked `kd_lower_bound` (reads instrumented with `getElem?`). -/
def kd_lower_bound_checked (d i : Nat) (v : Point) (xs : List Point) :
    Option Nat :=
  kd_lower_bound_checkedF d (xs.length + 1) i v xs

/-! Spatial queries. -/

/-- Steps 2-4 of one `kd_nearest_neighbor` node: adopt the better of the
near-side result `s0` and the pivot as current best (the pivot wins ties);
if the axis distance to the pivot beats the current best, a far-side
result `s2` that is strictly closer replaces it.  Distances are squared
(`sum_of_squares`); `dist_nth<I>(value, *pivot) < min_dist` becomes the
equivalent comparison of squares, both sides of the source comparison
being nonnegative. -/
def nnStep (d i : Nat) (v : Point) (xs : List Point) (s0 s2 : Nat) : Nat :=
  if s0 = xs.length then
    if (axisVal v i - axisVal (xs.getD (find_pivot i xs) []) i) ^ 2
        < sumOfSquares d (xs.getD (find_pivot i xs) []) v then
      if s2 ≠ xs.length ∧ sumOfSquares d (xs.getD s2 []) v
          < sumOfSquares d (xs.getD (find_pivot i xs) []) v then s2
      else find_pivot i xs
    else find_pivot i xs
  else if sumOfSquares d (xs.getD s0 []) v
      < sumOfSquares d (xs.getD (find_pivot i xs) []) v then
    if (axisVal v i - axisVal (xs.getD (find_pivot i xs) []) i) ^ 2
        < sumOfSquares d (xs.getD s0 []) v then
      if s2 ≠ xs.length ∧ sumOfSquares d (xs.getD s2 []) v
          < sumOfSquares d (xs.getD s0 []) v then s2
      else s0
    else s0
  else
    if (axisVal v i - axisVal (xs.getD (find_pivot i xs) []) i) ^ 2
        < sumOfSquares d (xs.getD (find_pivot i xs) []) v then
      if s2 ≠ xs.length ∧ sumOfSquares d (xs.getD s2 []) v
          < sumOfSquares d (xs.getD (find_pivot i xs) []) v then s2
      else find_pivot i xs
    else find_pivot i xs

/-- `detail::kd_nearest_neighbor<I>` with fuel; the near side is the left
subrange exactly when `less_nth<I>(value, *pivot)`. -/
def kd_nearest_neighborF (d : Nat) : Nat → Nat → Point → List Point → Nat
  | 0, _, _, _ => 0
  | n+1, i, v, xs =>
    if xs.length ≤ 1 then 0
    else if lessNth i v (xs.getD (find_pivot i xs) []) then
      nnStep d i v xs
        (kd_nearest_neighborF d n ((i+1) % d) v (xs.take (find_pivot i xs)))
        (find_pivot i xs + 1
          + kd_nearest_neighborF d n ((i+1) % d) v
              (xs.drop (find_pivot i xs + 1)))
    else
      nnStep d i v xs
        (find_pivot i xs + 1
          + kd_nearest_neighborF d n ((i+1) % d) v
              (xs.drop (find_pivot i xs + 1)))
        (kd_nearest_neighborF d n ((i+1) % d) v (xs.take (find_pivot i xs)))

/-- `kdtools::kd_nearest_neighbor`. -/
def kd_nearest_neighbor (d i : Nat) (v : Point) (xs : List Point) : Nat :=
  kd_nearest_neighborF d (xs.length + 1) i v xs

/-- `detail::kd_range_query<I>` with fuel: ranges of more than 32 elements
recurse (emitting the pivot first, then the left, then the right side);
smaller ranges are scanned linearly with `copy_if`. -/
def kd_range_queryF (d : Nat) : Nat → Nat → Point → Point → List Point →
    List Point
  | 0, _, _, _, xs => xs.filter (fun x => within d x [] [])
  | n+1, i, lo, hi, xs =>
    if 32 < xs.length then
      (if within d (xs.getD (find_pivot i xs) []) lo hi then
          [xs.getD (find_pivot i xs) []] else [])
      ++ (if ! lessNth i (xs.getD (find_pivot i xs) []) lo then
            kd_range_queryF d n ((i+1) % d) lo hi (xs.take (find_pivot i xs))
          else [])
      ++ (if lessNth i (xs.getD (find_pivot i xs) []) hi then
            kd_range_queryF d n ((i+1) % d) lo hi
              (xs.drop (find_pivot i xs + 1))
          else [])
    else xs.filter (fun x => within d x lo hi)

/-- `kdtools::kd_range_query`. -/
def kd_range_query (d i : Nat) (lo hi : Point) (xs : List Point) :
    List Point :=
  kd_range_queryF d (xs.length + 1) i lo hi xs

/-! `detail::n_best`: a bounded max-heap of (squared distance, element)
pairs, compared on the distance (`less_nth<0>` applied to the pair).
`numeric_limits<Key>::max()` is modelled as `⊤ : WithTop Int`.  The heap
itself is modelled as the list of its entries; the top is a maximal-key
entry (the C++ heap's choice among equal keys is unspecified; the model
removes the first maximal entry). -/

structure NBest where
  n : Nat
  q : List (Int × Point)
deriving Repr, DecidableEq

/-- Largest key currently stored (`m_q.top().first` of a max-heap). -/
def qmax (l : List (Int × Point)) : Int :=
  match l with
  | [] => 0
  | e :: es => es.foldl (fun m x => max m x.1) e.1

/-- `m_q.pop()`: remove one maximal-key entry. -/
def popMax (l : List (Int × Point)) : List (Int × Point) :=
  l.eraseP (fun e => decide (e.1 = qmax l))

/-- `n_best::max_key`: `numeric_limits::max()` (modelled `⊤`) when the
queue is empty, otherwise the top key. -/
def NBest.maxKey (b : NBest) : WithTop Int :=
  match b.q with
  | [] => ⊤
  | _ => (qmax b.q : Int)

/-- `n_best::add`: push, then pop the maximum when the size exceeds `n`. -/
def NBest.add (b : NBest) (k : Int) (p : Point) : NBest :=
  if b.n < ((k, p) :: b.q).length then { b with q := popMax ((k, p) :: b.q) }
  else { b with q := (k, p) :: b.q }

/-- `n_best::copy_to`: repeatedly emit `*top` and pop until empty; i.e.
the stored elements in non-increasing key order (stable among equal
keys). -/
def NBest.drain (b : NBest) : List Point :=
  (sortLe (fun e f : Int × Point => decide (f.1 ≤ e.1)) b.q).map Prod.snd

/-- The far-side decision of one `knn` node: recurse into the far side
(given as a function of the queue) unless
`dist_nth<I>(value, *pivot) > max_key()`, comparing squared distances. -/
def knnStep (i : Nat) (v : Point) (xs : List Point) (b2 : NBest)
    (far : NBest → NBest) : NBest :=
  if (((axisVal v i - axisVal (xs.getD (find_pivot i xs) []) i) ^ 2 : Int)
      : WithTop Int) ≤ b2.maxKey then far b2 else b2

/-- `detail::knn<I>` with fuel.  The `switch` adds the single element on
size 1 and returns on sizes ≤ 1; otherwise the pivot is added, the near
side is searched, and the far side is searched unless pruned. -/
def knnF (d : Nat) : Nat → Nat → Point → List Point → NBest → NBest
  | 0, _, _, _, b => b
  | n+1, i, v, xs, b =>
    if xs.length = 1 then
      b.add (sumOfSquares d (xs.getD 0 []) v) (xs.getD 0 [])
    else if xs.length = 0 then b
    else if lessNth i v (xs.getD (find_pivot i xs) []) then
      knnStep i v xs
        (knnF d n ((i+1) % d) v (xs.take (find_pivot i xs))
          (b.add (sumOfSquares d (xs.getD (find_pivot i xs) []) v)
            (xs.getD (find_pivot i xs) [])))
        (fun b2 => knnF d n ((i+1) % d) v (xs.drop (find_pivot i xs + 1)) b2)
    else
      knnStep i v xs
        (knnF d n ((i+1) % d) v (xs.drop (find_pivot i xs + 1))
          (b.add (sumOfSquares d (xs.getD (find_pivot i xs) []) v)
            (xs.getD (find_pivot i xs) [])))
        (fun b2 => knnF d n ((i+1) % d) v (xs.take (find_pivot i xs)) b2)

/-- `detail::knn` entry. -/
def knn (d i : Nat) (v : Point) (xs : List Point) (b : NBest) : NBest :=
  knnF d (xs.length + 1) i v xs b

/-- `kdtools::kd_nearest_neighbors`: run `knn` on an empty `n_best` of
capacity `k`, then drain it. -/
def kd_nearest_neighbors (d : Nat) (v : Point) (k : Nat)
    (xs : List Point) : List Point :=
  (knn d 0 v xs (NBest.mk k [])).drain

/-- Boolean `≤` on `Int`, used to state order properties of query output. -/
def intLe (a b : Int) : Bool := decide (a ≤ b)

/-- Agreement of two points on every axis below `d` (the notion of
"the same point" as far as a `d`-dimensional tree is concerned). -/
def eqD (d : Nat) (a b : Point) : Prop := ∀ k, k < d → axisVal a k = axisVal b k

/-! # Infrastructure lemmas -/

theorem insertLe_perm {α : Type} (le : α → α → Bool) (x : α) (l : List α) :
    List.Perm (insertLe le x l) (x :: l) := by
  induction l with
  | nil => simp [insertLe]
  | cons y ys ih =>
    simp only [insertLe]
    split
    · exact List.Perm.refl _
    · exact List.Perm.trans (List.Perm.cons y ih) (List.Perm.swap x y ys)

theorem sortLe_perm {α : Type} (le : α → α → Bool) (l : List α) :
    List.Perm (sortLe le l) l := by
  induction l with
  | nil => exact List.Perm.refl _
  | cons x xs ih =>
    exact List.Perm.trans (insertLe_perm le x (sortLe le xs))
      (List.Perm.cons x ih)

theorem sortLe_length {α : Type} (le : α → α → Bool) (l : List α) :
    (sortLe le l).length = l.length :=
  (sortLe_perm le l).length_eq

theorem insertLe_pairwise {α : Type} (le : α → α → Bool)
    (htot : ∀ a b, le a b = true ∨ le b a = true)
    (htr : ∀ a b c, le a b = true → le b c = true → le a c = true)
    (x : α) (l : List α) (hl : l.Pairwise (fun a b => le a b = true)) :
    (insertLe le x l).Pairwise (fun a b => le a b = true) := by
  induction l with
  | nil => simp [insertLe]
  | cons y ys ih =>
    simp only [insertLe]
    rcases List.pairwise_cons.mp hl with ⟨hy, hys⟩
    split
    · rename_i hxy
      refine List.pairwise_cons.mpr ⟨?_, hl⟩
      intro z hz
      rcases hz with _ | hz
      · exact hxy
      · exact htr x y z hxy (hy z (by assumption))
    · rename_i hxy
      have hyx : le y x = true := (htot x y).resolve_left hxy
      refine List.pairwise_cons.mpr ⟨?_, ih hys⟩
      intro z hz
      have hmem := (insertLe_perm le x ys).mem_iff.mp hz
      rcases List.mem_cons.mp hmem with hz' | hz'
      · subst hz'; exact hyx
      · exact hy z hz'

theorem sortLe_pairwise {α : Type} (le : α → α → Bool)
    (htot : ∀ a b, le a b = true ∨ le b a = true)
    (htr : ∀ a b c, le a b = true → le b c = true → le a c = true)
    (l : List α) :
    (sortLe le l).Pairwise (fun a b => le a b = true) := by
  induction l with
  | nil => simp [sortLe]
  | cons x xs ih => exact insertLe_pairwise le htot htr x _ ih

theorem nthElement_perm (pred : Point → Point → Bool) (n : Nat)
    (xs : List Point) : List.Perm (nthElement pred n xs) xs :=
  sortLe_perm _ xs

theorem nthElement_length (pred : Point → Point → Bool) (n : Nat)
    (xs : List Point) : (nthElement pred n xs).length = xs.length :=
  (nthElement_perm pred n xs).length_eq

/-! takeWhile / dropWhile helpers (stated for `Bool` predicates). -/

theorem take_takeWhile_length {α : Type} (p : α → Bool) (l : List α) :
    l.take (l.takeWhile p).length = l.takeWhile p := by
  induction l with
  | nil => simp
  | cons x xs ih =>
    by_cases h : p x
    · simp [List.takeWhile_cons, h, ih]
    · simp [List.takeWhile_cons, h]

theorem dropWhile_eq_drop_length {α : Type} (p : α → Bool) (l : List α) :
    l.dropWhile p = l.drop (l.takeWhile p).length := by
  induction l with
  | nil => simp
  | cons x xs ih =>
    by_cases h : p x
    · simp [List.takeWhile_cons, List.dropWhile_cons, h, ih]
    · simp [List.takeWhile_cons, List.dropWhile_cons, h]

theorem takeWhile_length_lt_getD {α : Type} (p : α → Bool) (l : List α)
    (dflt : α) (h : (l.takeWhile p).length < l.length) :
    p (l.getD (l.takeWhile p).length dflt) = false := by
  induction l with
  | nil => simp at h
  | cons x xs ih =>
    by_cases hx : p x
    · simp only [List.takeWhile_cons, hx, if_pos, List.length_cons] at h ⊢
      simpa using ih (by simpa using h)
    · simp [List.takeWhile_cons, hx]

theorem le_takeWhile_length_of_take {α : Type} (p : α → Bool) (l : List α)
    (n : Nat) (hn : n ≤ l.length) (h : ∀ x ∈ l.take n, p x = true) :
    n ≤ (l.takeWhile p).length := by
  induction l generalizing n with
  | nil => simpa using hn
  | cons x xs ih =>
    cases n with
    | zero => exact Nat.zero_le _
    | succ m =>
      have hx : p x = true := h x (by simp)
      simp only [List.takeWhile_cons, hx, if_pos, List.length_cons]
      have := ih m (by simpa using hn) (fun y hy => h y (by simp [hy]))
      omega

theorem takeWhile_length_le_of_not {α : Type} (p : α → Bool) (l : List α)
    (dflt : α) (j : Nat) (hj : j < l.length)
    (h : p (l.getD j dflt) = false) : (l.takeWhile p).length ≤ j := by
  induction l generalizing j with
  | nil => simp at hj
  | cons x xs ih =>
    cases j with
    | zero =>
      rw [List.getD_cons_zero] at h
      simp [List.takeWhile_cons, h]
    | succ m =>
      by_cases hx : p x
      · simp only [List.takeWhile_cons, hx, if_pos, List.length_cons]
        have := ih m (by simpa using hj) (by rwa [List.getD_cons_succ] at h)
        omega
      · simp [List.takeWhile_cons, hx]

theorem isPartitioned_dropWhile {α : Type} (p : α → Bool) (l : List α)
    (h : isPartitioned p l = true) :
    ∀ x ∈ l.dropWhile p, p x = false := by
  intro x hx
  have := List.all_eq_true.mp h x hx
  simpa using this

/-! Lexicographic comparison along an axis list. -/

theorem lexLess_irrefl (L : List Nat) (a : Point) : lexLess L a a = false := by
  induction L with
  | nil => rfl
  | cons j L ih =>
    cases L with
    | nil => simp [lexLess]
    | cons j' js => simpa [lexLess] using ih

theorem lexLess_asymm (L : List Nat) (a b : Point)
    (h : lexLess L a b = true) : lexLess L b a = false := by
  induction L with
  | nil => simp [lexLess] at h
  | cons j L ih =>
    cases L with
    | nil =>
      simp only [lexLess, decide_eq_true_eq, decide_eq_false_iff_not] at h ⊢
      omega
    | cons j' js =>
      simp only [lexLess] at h ⊢
      by_cases he : axisVal a j = axisVal b j
      · rw [if_pos he] at h
        rw [if_pos he.symm]
        exact ih h
      · rw [if_neg he] at h
        rw [if_neg (fun hba => he hba.symm)]
        simp only [decide_eq_true_eq] at h
        simp only [decide_eq_false_iff_not]
        omega

theorem lexLess_trans (L : List Nat) (a b c : Point)
    (hab : lexLess L a b = true) (hbc : lexLess L b c = true) :
    lexLess L a c = true := by
  induction L with
  | nil => simp [lexLess] at hab
  | cons j L ih =>
    cases L with
    | nil =>
      simp only [lexLess, decide_eq_true_eq] at hab hbc ⊢
      omega
    | cons j' js =>
      simp only [lexLess] at hab hbc ⊢
      by_cases he1 : axisVal a j = axisVal b j
      · rw [if_pos he1] at hab
        by_cases he2 : axisVal b j = axisVal c j
        · rw [if_pos he2] at hbc
          rw [if_pos (he1.trans he2)]
          exact ih hab hbc
        · rw [if_neg he2] at hbc
          simp only [decide_eq_true_eq] at hbc
          rw [if_neg (by omega), decide_eq_true_eq]
          omega
      · rw [if_neg he1] at hab
        simp only [decide_eq_true_eq] at hab
        by_cases he2 : axisVal b j = axisVal c j
        · rw [if_neg (by omega), decide_eq_true_eq]
          omega
        · rw [if_neg he2] at hbc
          simp only [decide_eq_true_eq] at hbc
          rw [if_neg (by omega), decide_eq_true_eq]
          omega

theorem lexLess_eq_of_not_not (L : List Nat) (a b : Point)
    (h1 : lexLess L a b = false) (h2 : lexLess L b a = false) :
    ∀ j ∈ L, axisVal a j = axisVal b j := by
  induction L with
  | nil => simp
  | cons j L ih =>
    cases L with
    | nil =>
      simp only [lexLess, decide_eq_false_iff_not] at h1 h2
      intro k hk
      rcases List.mem_singleton.mp hk with rfl
      omega
    | cons j' js =>
      simp only [lexLess] at h1 h2
      by_cases he : axisVal a j = axisVal b j
      · rw [if_pos he] at h1
        rw [if_pos he.symm] at h2
        intro k hk
        rcases List.mem_cons.mp hk with rfl | hk
        · exact he
        · exact ih h1 h2 k hk
      · rw [if_neg he] at h1
        rw [if_neg (fun hba => he hba.symm)] at h2
        simp only [decide_eq_false_iff_not] at h1 h2
        omega

theorem lexLess_congr_left (L : List Nat) (a a' b : Point)
    (h : ∀ j ∈ L, axisVal a j = axisVal a' j) :
    lexLess L a b = lexLess L a' b := by
  induction L with
  | nil => rfl
  | cons j L ih =>
    have hj : axisVal a j = axisVal a' j := h j (by simp)
    cases L with
    | nil => simp [lexLess, hj]
    | cons j' js =>
      simp only [lexLess, hj]
      rw [ih (fun k hk => h k (List.mem_cons_of_mem _ hk))]

theorem lexLess_congr_right (L : List Nat) (a b b' : Point)
    (h : ∀ j ∈ L, axisVal b j = axisVal b' j) :
    lexLess L a b = lexLess L a b' := by
  induction L with
  | nil => rfl
  | cons j L ih =>
    have hj : axisVal b j = axisVal b' j := h j (by simp)
    cases L with
    | nil => simp [lexLess, hj]
    | cons j' js =>
      simp only [lexLess, hj]
      rw [ih (fun k hk => h k (List.mem_cons_of_mem _ hk))]

theorem lexLess_head_lt (j : Nat) (L : List Nat) (a b : Point)
    (h : axisVal a j < axisVal b j) : lexLess (j :: L) a b = true := by
  cases L with
  | nil => simpa [lexLess]
  | cons j' js =>
    have hne : ¬ axisVal a j = axisVal b j := by omega
    simp only [lexLess]
    rw [if_neg hne]
    simpa

theorem lexLess_head_le (j : Nat) (L : List Nat) (a b : Point)
    (h : lexLess (j :: L) a b = true) : axisVal a j ≤ axisVal b j := by
  cases L with
  | nil => simp only [lexLess, decide_eq_true_eq] at h; omega
  | cons j' js =>
    simp only [lexLess] at h
    by_cases he : axisVal a j = axisVal b j
    · omega
    · rw [if_neg he, decide_eq_true_eq] at h; omega

theorem lexLess_false_of_ge (L : List Nat) (a b : Point)
    (h : ∀ j ∈ L, axisVal b j ≤ axisVal a j) : lexLess L a b = false := by
  induction L with
  | nil => rfl
  | cons j L ih =>
    have hj := h j (by simp)
    cases L with
    | nil => simp [lexLess]; omega
    | cons j' js =>
      simp only [lexLess]
      by_cases he : axisVal a j = axisVal b j
      · rw [if_pos he]
        exact ih (fun k hk => h k (List.mem_cons_of_mem _ hk))
      · rw [if_neg he, decide_eq_false_iff_not]
        omega

theorem lexLess_true_of_ge_ne (L : List Nat) (a b : Point)
    (hge : ∀ j ∈ L, axisVal b j ≤ axisVal a j)
    (hne : ∃ j ∈ L, axisVal a j ≠ axisVal b j) :
    lexLess L b a = true := by
  induction L with
  | nil => simp at hne
  | cons j L ih =>
    have hj := hge j (by simp)
    cases L with
    | nil =>
      rcases hne with ⟨k, hk, hkne⟩
      rcases List.mem_singleton.mp hk with rfl
      simp only [lexLess, decide_eq_true_eq]
      omega
    | cons j' js =>
      simp only [lexLess]
      by_cases he : axisVal b j = axisVal a j
      · rw [if_pos he]
        refine ih (fun k hk => hge k (List.mem_cons_of_mem _ hk)) ?_
        rcases hne with ⟨k, hk, hkne⟩
        rcases List.mem_cons.mp hk with rfl | hk
        · omega
        · exact ⟨k, hk, hkne⟩
      · rw [if_neg he, decide_eq_true_eq]
        omega

/-! The axis cycle of `kd_less` and its relation to `lexLess`. -/

theorem axisCycle_cons (d f k i : Nat) :
    ∃ T, axisCycle d f k i = i :: T := by
  cases f with
  | zero => exact ⟨[], rfl⟩
  | succ g =>
    rw [axisCycle]
    by_cases hc : d ≤ k + 1
    · exact ⟨[], by simp [hc]⟩
    · refine ⟨axisCycle d g (k+1) ((i+1) % d), ?_⟩
      simp [hc]

theorem kdLessAux_eq_lex (d : Nat) :
    ∀ f k i a b, kdLessAux d f k i a b = lexLess (axisCycle d f k i) a b := by
  intro f
  induction f with
  | zero =>
    intro k i a b
    rfl
  | succ m ih =>
    intro k i a b
    rw [kdLessAux, axisCycle]
    by_cases hc : d ≤ k + 1
    · rw [if_pos hc, if_pos hc]; rfl
    · rw [if_neg hc, if_neg hc]
      obtain ⟨T, hT⟩ := axisCycle_cons d m (k+1) ((i+1) % d)
      rw [hT]
      simp only [lexLess]
      by_cases he : axisVal a i = axisVal b i
      · rw [if_pos he, if_pos he, ih (k+1) ((i+1) % d) a b, hT]
      · rw [if_neg he, if_neg he]

theorem kdLess_eq_lex (d i : Nat) (a b : Point) :
    kdLess d i a b = lexLess (axisCycle d d 0 i) a b :=
  kdLessAux_eq_lex d d 0 i a b

theorem axisCycle_eq_map (d : Nat) :
    ∀ f k i, k < d → i < d → d - k = f →
      axisCycle d f k i = (List.range f).map (fun t => (i + t) % d) := by
  intro f
  induction f with
  | zero => intro k i hk _ hn; omega
  | succ m ih =>
    intro k i hk hi hn
    rw [axisCycle]
    by_cases hc : d ≤ k + 1
    · have hm : m = 0 := by omega
      subst hm
      rw [if_pos hc]
      simp [List.range_succ, Nat.mod_eq_of_lt hi]
    · rw [if_neg hc]
      have h1 : (i+1) % d < d := Nat.mod_lt _ (by omega)
      rw [ih (k+1) ((i+1) % d) (by omega) h1 (by omega)]
      rw [List.range_succ_eq_map]
      simp only [List.map_cons, List.map_map, Nat.add_zero,
        Nat.mod_eq_of_lt hi]
      refine congrArg (i :: ·) (List.map_congr_left ?_)
      intro t _
      simp only [Function.comp_apply]
      rw [Nat.mod_add_mod]
      congr 1
      omega

theorem axisCycle_mem_lt (d i : Nat) (hd : 0 < d) (hi : i < d) :
    ∀ j ∈ axisCycle d d 0 i, j < d := by
  rw [axisCycle_eq_map d d 0 i hd hi (by omega)]
  intro j hj
  rcases List.mem_map.mp hj with ⟨t, _, rfl⟩
  exact Nat.mod_lt _ hd

theorem mem_axisCycle (d i j : Nat) (hd : 0 < d) (hi : i < d) (hj : j < d) :
    j ∈ axisCycle d d 0 i := by
  rw [axisCycle_eq_map d d 0 i hd hi (by omega)]
  refine List.mem_map.mpr ⟨(d + j - i) % d, List.mem_range.mpr (Nat.mod_lt _ hd), ?_⟩
  rw [Nat.add_mod_mod]
  have hij : i + (d + j - i) = d + j := by omega
  rw [hij, Nat.add_mod_left, Nat.mod_eq_of_lt hj]

/-! `kd_less` is a strict weak order whose incomparability is agreement on
every axis below `d`. -/

theorem kdLess_irrefl (d i : Nat) (a : Point) : kdLess d i a a = false := by
  rw [kdLess_eq_lex]; exact lexLess_irrefl _ a

theorem kdLess_asymm (d i : Nat) (a b : Point)
    (h : kdLess d i a b = true) : kdLess d i b a = false := by
  rw [kdLess_eq_lex] at h ⊢; exact lexLess_asymm _ a b h

theorem kdLess_trans (d i : Nat) (a b c : Point)
    (hab : kdLess d i a b = true) (hbc : kdLess d i b c = true) :
    kdLess d i a c = true := by
  rw [kdLess_eq_lex] at hab hbc ⊢; exact lexLess_trans _ a b c hab hbc

theorem kdLess_eqD (d i : Nat) (hd : 0 < d) (hi : i < d) (a b : Point)
    (h1 : kdLess d i a b = false) (h2 : kdLess d i b a = false) :
    eqD d a b := by
  rw [kdLess_eq_lex] at h1 h2
  intro k hk
  exact lexLess_eq_of_not_not _ a b h1 h2 k (mem_axisCycle d i k hd hi hk)

theorem kdLess_congr_left (d i : Nat) (hd : 0 < d) (hi : i < d)
    (a a' b : Point) (h : eqD d a a') :
    kdLess d i a b = kdLess d i a' b := by
  rw [kdLess_eq_lex, kdLess_eq_lex]
  exact lexLess_congr_left _ a a' b
    (fun j hj => h j (axisCycle_mem_lt d i hd hi j hj))

theorem kdLess_congr_right (d i : Nat) (hd : 0 < d) (hi : i < d)
    (a b b' : Point) (h : eqD d b b') :
    kdLess d i a b = kdLess d i a b' := by
  rw [kdLess_eq_lex, kdLess_eq_lex]
  exact lexLess_congr_right _ a b b'
    (fun j hj => h j (axisCycle_mem_lt d i hd hi j hj))

theorem kdLess_of_axis_lt (d i : Nat) (a b : Point)
    (h : axisVal a i < axisVal b i) : kdLess d i a b = true := by
  rw [kdLess_eq_lex]
  obtain ⟨T, hT⟩ := axisCycle_cons d d 0 i
  rw [hT]
  exact lexLess_head_lt i T a b h

theorem axis_le_of_kdLess (d i : Nat) (a b : Point)
    (h : kdLess d i a b = true) : axisVal a i ≤ axisVal b i := by
  rw [kdLess_eq_lex] at h
  obtain ⟨T, hT⟩ := axisCycle_cons d d 0 i
  rw [hT] at h
  exact lexLess_head_le i T a b h

theorem axis_ge_of_not_kdLess (d i : Nat) (a b : Point)
    (h : kdLess d i a b = false) : axisVal b i ≤ axisVal a i := by
  by_contra hlt
  rw [kdLess_of_axis_lt d i a b (by omega)] at h
  exact Bool.true_eq_false.mp h

theorem kdLess_false_of_ge (d i : Nat) (hd : 0 < d) (hi : i < d)
    (a b : Point) (h : ∀ k, k < d → axisVal b k ≤ axisVal a k) :
    kdLess d i a b = false := by
  rw [kdLess_eq_lex]
  exact lexLess_false_of_ge _ a b
    (fun j hj => h j (axisCycle_mem_lt d i hd hi j hj))

theorem kdLess_true_of_ge_ne (d i : Nat) (hd : 0 < d) (hi : i < d)
    (a b : Point) (hge : ∀ k, k < d → axisVal b k ≤ axisVal a k)
    (hne : ∃ k, k < d ∧ axisVal a k ≠ axisVal b k) :
    kdLess d i b a = true := by
  rw [kdLess_eq_lex]
  rcases hne with ⟨k, hk, hkne⟩
  exact lexLess_true_of_ge_ne _ a b
    (fun j hj => hge j (axisCycle_mem_lt d i hd hi j hj))
    ⟨k, mem_axisCycle d i k hd hi hk, hkne⟩

/-! Componentwise predicates as bounded quantifiers. -/

theorem noneLessAux_iff (d : Nat) (a b : Point) :
    ∀ f i, i < d → d - i = f →
      (noneLessAux d a b f i = true ↔
        ∀ k, i ≤ k → k < d → axisVal b k ≤ axisVal a k) := by
  intro f
  induction f with
  | zero => intro i hi h; omega
  | succ m ih =>
    intro i hi h
    rw [noneLessAux]
    by_cases hc : d ≤ i + 1
    · rw [if_pos hc]
      simp only [decide_eq_true_eq]
      constructor
      · intro hle k hk1 hk2
        have : k = i := by omega
        rwa [this]
      · intro hall; exact hall i (le_refl i) hi
    · rw [if_neg hc, Bool.and_eq_true]
      rw [ih (i+1) (by omega) (by omega)]
      simp only [decide_eq_true_eq]
      constructor
      · rintro ⟨hle, hrest⟩ k hk1 hk2
        rcases Nat.eq_or_lt_of_le hk1 with rfl | hk1'
        · exact hle
        · exact hrest k hk1' hk2
      · intro hall
        exact ⟨hall i (le_refl i) hi,
          fun k hk1 hk2 => hall k (by omega) hk2⟩

theorem noneLess_iff (d : Nat) (hd : 0 < d) (a b : Point) :
    noneLess d a b = true ↔ ∀ k, k < d → axisVal b k ≤ axisVal a k := by
  rw [noneLess, noneLessAux_iff d a b d 0 hd (by omega)]
  constructor
  · intro h k hk; exact h k (Nat.zero_le k) hk
  · intro h k _ hk; exact h k hk

theorem allLessAux_iff (d : Nat) (a b : Point) :
    ∀ f i, i < d → d - i = f →
      (allLessAux d a b f i = true ↔
        ∀ k, i ≤ k → k < d → axisVal a k < axisVal b k) := by
  intro f
  induction f with
  | zero => intro i hi h; omega
  | succ m ih =>
    intro i hi h
    rw [allLessAux]
    by_cases hc : d ≤ i + 1
    · rw [if_pos hc]
      simp only [decide_eq_true_eq]
      constructor
      · intro hle k hk1 hk2
        have : k = i := by omega
        rwa [this]
      · intro hall; exact hall i (le_refl i) hi
    · rw [if_neg hc, Bool.and_eq_true]
      rw [ih (i+1) (by omega) (by omega)]
      simp only [decide_eq_true_eq]
      constructor
      · rintro ⟨hle, hrest⟩ k hk1 hk2
        rcases Nat.eq_or_lt_of_le hk1 with rfl | hk1'
        · exact hle
        · exact hrest k hk1' hk2
      · intro hall
        exact ⟨hall i (le_refl i) hi,
          fun k hk1 hk2 => hall k (by omega) hk2⟩

theorem allLess_iff (d : Nat) (hd : 0 < d) (a b : Point) :
    allLess d a b = true ↔ ∀ k, k < d → axisVal a k < axisVal b k := by
  rw [allLess, allLessAux_iff d a b d 0 hd (by omega)]
  constructor
  · intro h k hk; exact h k (Nat.zero_le k) hk
  · intro h k _ hk; exact h k hk

theorem eqD_iff_noneLess (d : Nat) (hd : 0 < d) (a b : Point) :
    (noneLess d a b = true ∧ noneLess d b a = true) ↔ eqD d a b := by
  rw [noneLess_iff d hd, noneLess_iff d hd]
  constructor
  · rintro ⟨h1, h2⟩ k hk
    have := h1 k hk
    have := h2 k hk
    omega
  · intro h
    refine ⟨fun k hk => le_of_eq (h k hk).symm, fun k hk => le_of_eq (h k hk)⟩

theorem eqD_refl (d : Nat) (a : Point) : eqD d a a := fun _ _ => rfl

theorem eqD_symm {d : Nat} {a b : Point} (h : eqD d a b) : eqD d b a :=
  fun k hk => (h k hk).symm

theorem eqD_trans {d : Nat} {a b c : Point} (h1 : eqD d a b)
    (h2 : eqD d b c) : eqD d a c :=
  fun k hk => (h1 k hk).trans (h2 k hk)

/-! `sum_of_squares` as a finite sum, with basic bounds. -/

theorem sumOfSquaresAux_eq (d : Nat) (a b : Point) :
    ∀ f i, i < d → d - i = f →
      sumOfSquaresAux d a b f i
        = ∑ k in Finset.Ico i d, (axisVal b k - axisVal a k) ^ 2 := by
  intro f
  induction f with
  | zero => intro i hi h; omega
  | succ m ih =>
    intro i hi h
    rw [sumOfSquaresAux]
    by_cases hc : d ≤ i + 1
    · have hd : d = i + 1 := by omega
      subst hd
      rw [if_pos hc, show Finset.Ico i (i+1) = {i} from by
        rw [Nat.Ico_succ_right, Finset.Icc_self], Finset.sum_singleton]
    · rw [if_neg hc, ih (i+1) (by omega) (by omega),
        Finset.sum_eq_sum_Ico_succ_bot (show i < d from by omega)
          (fun k => (axisVal b k - axisVal a k) ^ 2)]

theorem sumOfSquares_eq (d : Nat) (hd : 0 < d) (a b : Point) :
    sumOfSquares d a b = ∑ k in Finset.range d, (axisVal b k - axisVal a k) ^ 2 := by
  rw [sumOfSquares, sumOfSquaresAux_eq d a b d 0 hd (by omega),
    Finset.range_eq_Ico]

theorem sumOfSquares_nonneg (d : Nat) (hd : 0 < d) (a b : Point) :
    0 ≤ sumOfSquares d a b := by
  rw [sumOfSquares_eq d hd]
  exact Finset.sum_nonneg (fun k _ => sq_nonneg (axisVal b k - axisVal a k))

theorem sq_axis_le_sumOfSquares (d i : Nat) (hd : 0 < d) (hi : i < d)
    (a b : Point) :
    (axisVal b i - axisVal a i) ^ 2 ≤ sumOfSquares d a b := by
  rw [sumOfSquares_eq d hd]
  exact Finset.single_le_sum
    (fun k _ => sq_nonneg (axisVal b k - axisVal a k))
    (Finset.mem_range.mpr hi)

theorem sumOfSquares_comm (d : Nat) (hd : 0 < d) (a b : Point) :
    sumOfSquares d a b = sumOfSquares d b a := by
  rw [sumOfSquares_eq d hd, sumOfSquares_eq d hd]
  refine Finset.sum_congr rfl (fun k _ => ?_)
  ring



/-! Small indexing helpers. -/

theorem takeWhile_length_le {α : Type} (p : α → Bool) (l : List α) :
    (l.takeWhile p).length ≤ l.length := by
  induction l with
  | nil => simp
  | cons x xs ih =>
    by_cases h : p x
    · simp only [List.takeWhile_cons, h, if_pos, List.length_cons]
      omega
    · simp [List.takeWhile_cons, h]

theorem mem_takeWhile_sat {α : Type} (p : α → Bool) (l : List α) :
    ∀ x ∈ l.takeWhile p, p x = true := by
  induction l with
  | nil => simp
  | cons y ys ih =>
    by_cases h : p y
    · intro x hx
      rw [List.takeWhile_cons, if_pos h] at hx
      rcases List.mem_cons.mp hx with rfl | hx
      · exact h
      · exact ih x hx
    · intro x hx
      rw [List.takeWhile_cons, if_neg h] at hx
      simp at hx

theorem getD_eq_getElem {α : Type} (l : List α) (n : Nat) (dflt : α)
    (h : n < l.length) : l.getD n dflt = l[n] := by
  rw [List.getD, List.get?_eq_getElem?, List.getElem?_eq_getElem h]
  rfl

theorem take_getD {α : Type} (l : List α) (n j : Nat) (dflt : α)
    (h : j < n) : (l.take n).getD j dflt = l.getD j dflt := by
  rw [List.getD, List.getD, List.get?_eq_getElem?, List.get?_eq_getElem?,
    List.getElem?_take]
  rw [if_pos h]

theorem drop_getD {α : Type} (l : List α) (n j : Nat) (dflt : α) :
    (l.drop n).getD j dflt = l.getD (n + j) dflt := by
  rw [List.getD, List.getD, List.get?_eq_getElem?, List.get?_eq_getElem?,
    List.getElem?_drop]

theorem drop_eq_getD_cons {α : Type} (l : List α) (n : Nat) (dflt : α)
    (h : n < l.length) :
    l.drop n = l.getD n dflt :: l.drop (n+1) := by
  rw [getD_eq_getElem _ _ _ h]
  exact List.drop_eq_getElem_cons h

/-- Structure of one verified node, stated for a named pivot index `j` and
pivot element `P`: under `kd_is_sorted` at axis `i` on a range of length
≥ 2, `j = find_pivot` is a valid index not past the middle, everything
before it is `less_nth`-below `P`, everything from position `j` on fails
`kd_less(·, P)`, and both sides are recursively verified (with one unit
less fuel). -/
theorem kd_is_sorted_node (d i n : Nat) (xs : List Point) (j : Nat)
    (P : Point) (hlen : 2 ≤ xs.length) (hjdef : j = find_pivot i xs)
    (hP : P = xs.getD j []) (hs : kd_is_sortedF d (n+1) i xs = true) :
    j ≤ middleOf xs
    ∧ j < xs.length
    ∧ (∀ x ∈ xs.take j, lessNth i x P = true)
    ∧ (∀ y ∈ xs.drop j, kdLess d i y P = false)
    ∧ kd_is_sortedF d n ((i+1) % d) (xs.take j) = true
    ∧ kd_is_sortedF d n ((i+1) % d) (xs.drop (j + 1)) = true := by
  have hm : middleOf xs < xs.length := Nat.div_lt_self (by omega) (by omega)
  have htm : (xs.take (middleOf xs)).length = middleOf xs := by
    simp; omega
  have hjdef' : j = ((xs.take (middleOf xs)).takeWhile
      (fun x => lessNth i x (xs.getD (middleOf xs) []))).length := hjdef
  have hjm : j ≤ middleOf xs := by
    rw [hjdef']
    exact le_trans (takeWhile_length_le _ _) (le_of_eq htm)
  have hjlen : j < xs.length := by omega
  -- the prefix before `j` is the takeWhile prefix
  have htake : xs.take j = (xs.take (middleOf xs)).takeWhile
      (fun x => lessNth i x (xs.getD (middleOf xs) [])) := by
    have h1 := take_takeWhile_length
      (fun x => lessNth i x (xs.getD (middleOf xs) []))
      (xs.take (middleOf xs))
    rw [← hjdef', List.take_take, min_eq_left hjm] at h1
    exact h1
  have hprefix : ∀ x ∈ xs.take j,
      lessNth i x (xs.getD (middleOf xs) []) = true := by
    intro x hx
    rw [htake] at hx
    exact mem_takeWhile_sat _ _ x hx
  have hPi : ∀ x ∈ xs.take j, lessNth i x P = true := by
    rcases Nat.eq_or_lt_of_le hjm with hjm' | hjm'
    · intro x hx
      rw [hP, hjm']
      exact hprefix x hx
    · have h0 := takeWhile_length_lt_getD
          (fun x => lessNth i x (xs.getD (middleOf xs) []))
          (xs.take (middleOf xs)) []
          (by rw [htm, ← hjdef']; exact hjm')
      simp only at h0
      rw [← hjdef'] at h0
      rw [take_getD xs (middleOf xs) j [] hjm'] at h0
      simp only [lessNth, decide_eq_false_iff_not] at h0
      intro x hx
      have hx' := hprefix x hx
      simp only [lessNth, decide_eq_true_eq] at hx' ⊢
      rw [hP]
      omega
  -- unfold the verifier
  rw [show kd_is_sortedF d (n+1) i xs
      = (check_partition (kdLess d i) (xs.getD (find_pivot i xs) []) xs
        && kd_is_sortedF d n ((i+1) % d) (xs.take (find_pivot i xs))
        && kd_is_sortedF d n ((i+1) % d) (xs.drop (find_pivot i xs + 1)))
    from by rw [kd_is_sortedF]; rw [if_neg (by omega)]] at hs
  rw [← hjdef, ← hP] at hs
  rw [Bool.and_eq_true, Bool.and_eq_true] at hs
  obtain ⟨⟨hpart, hrec1⟩, hrec2⟩ := hs
  -- the partition split coincides with `j`
  have hAtrue : ∀ x ∈ xs.take j, (fun x => kdLess d i x P) x = true := by
    intro x hx
    refine kdLess_of_axis_lt d i x _ ?_
    have := hPi x hx
    simp only [lessNth, decide_eq_true_eq] at this
    exact this
  have hs_ge : j ≤ (xs.takeWhile (fun x => kdLess d i x P)).length :=
    le_takeWhile_length_of_take _ xs j (by omega) hAtrue
  have hs_le : (xs.takeWhile (fun x => kdLess d i x P)).length ≤ j := by
    refine takeWhile_length_le_of_not _ xs [] j hjlen ?_
    rw [← hP]
    exact kdLess_irrefl d i _
  have hdropA : ∀ y ∈ xs.drop j, kdLess d i y P = false := by
    intro y hy
    refine isPartitioned_dropWhile (fun x => kdLess d i x P) xs hpart y ?_
    rw [dropWhile_eq_drop_length]
    have : (xs.takeWhile (fun x => kdLess d i x P)).length = j := by omega
    rwa [this]
  exact ⟨hjm, hjlen, hPi, hdropA, hrec1, hrec2⟩

/-! Permutation facts about the builder. -/

theorem headD_cons_tail {α : Type} (l : List α) (dflt : α) (h : l ≠ []) :
    l.headD dflt :: l.tail = l := by
  cases l with
  | nil => exact absurd rfl h
  | cons x xs => rfl

theorem sortRest_ne_nil (d i : Nat) (xs : List Point) :
    sortRest d i xs ≠ [] := by
  rw [sortRest]
  intro h
  exact absurd (List.append_eq_nil.mp h).2 (List.cons_ne_nil _ _)

theorem middleOf_lt (xs : List Point) (h : 2 ≤ xs.length) :
    middleOf xs < xs.length :=
  Nat.div_lt_self (by omega) (by omega)

theorem sortLeft_length_le (d i : Nat) (xs : List Point) :
    (sortLeft d i xs).length ≤ middleOf xs := by
  rw [sortLeft]
  refine le_trans (List.length_filter_le _ _) ?_
  simp

theorem kd_sort_split_perm (d i : Nat) (xs : List Point)
    (h : 2 ≤ xs.length) :
    (sortLeft d i xs ++ sortRest d i xs).Perm xs := by
  rw [sortLeft, sortRest]
  have hlen : (nthElement (kdLess d i) (middleOf xs) xs).length = xs.length :=
    nthElement_length _ _ _
  have hm : middleOf xs < (nthElement (kdLess d i) (middleOf xs) xs).length := by
    rw [hlen]; exact middleOf_lt xs h
  have hdec : nthElement (kdLess d i) (middleOf xs) xs
      = (nthElement (kdLess d i) (middleOf xs) xs).take (middleOf xs)
        ++ sortPiv d i xs
          :: (nthElement (kdLess d i) (middleOf xs) xs).drop (middleOf xs + 1) := by
    conv_lhs => rw [← List.take_append_drop (middleOf xs)
      (nthElement (kdLess d i) (middleOf xs) xs)]
    rw [drop_eq_getD_cons _ _ [] hm]
    rfl
  refine List.Perm.trans ?_ (List.Perm.trans (List.Perm.of_eq hdec.symm)
    (nthElement_perm _ _ _))
  rw [← List.append_assoc]
  exact List.Perm.append (List.filter_append_perm _ _)
    (List.Perm.refl _)

theorem kd_sortF_perm (d : Nat) :
    ∀ n i xs, xs.length ≤ n → (kd_sortF d n i xs).Perm xs := by
  intro n
  induction n with
  | zero =>
    intro i xs h
    rw [kd_sortF]
  | succ m ih =>
    intro i xs h
    rw [kd_sortF]
    by_cases hc : xs.length ≤ 1
    · rw [if_pos hc]
    · rw [if_neg hc]
      have h2 : 2 ≤ xs.length := by omega
      have hsplit := kd_sort_split_perm d i xs h2
      have hlen2 := hsplit.length_eq
      rw [List.length_append] at hlen2
      have hL : (sortLeft d i xs).length ≤ m := by
        have := sortLeft_length_le d i xs
        have := middleOf_lt xs h2
        omega
      have hRne := sortRest_ne_nil d i xs
      have hRlen : 1 ≤ (sortRest d i xs).length :=
        List.length_pos.mpr hRne
      have hT : (sortRest d i xs).tail.length ≤ m := by
        rw [List.length_tail]
        omega
      refine List.Perm.trans
        (List.Perm.append (ih ((i+1) % d) _ hL)
          (List.Perm.cons _ (ih ((i+1) % d) _ hT))) ?_
      rw [headD_cons_tail _ _ hRne]
      exact hsplit

/-- C7: `kd_sort` (at every axis, hence at each of its recursive steps)
preserves the multiset of elements of the array: its output is a
permutation of its input. -/
theorem kd_sort_perm (d i : Nat) (xs : List Point) :
    (kd_sort d i xs).Perm xs :=
  kd_sortF_perm d (xs.length + 1) i xs (by omega)

/-! Facts about the bounded max-heap `n_best`. -/

theorem le_foldl_max (l : List (Int × Point)) :
    ∀ a : Int, a ≤ l.foldl (fun m x => max m x.1) a := by
  induction l with
  | nil => intro a; exact le_refl a
  | cons e es ih =>
    intro a
    exact le_trans (le_max_left a e.1) (ih (max a e.1))

theorem mem_le_foldl_max (l : List (Int × Point)) :
    ∀ a : Int, ∀ e ∈ l, e.1 ≤ l.foldl (fun m x => max m x.1) a := by
  induction l with
  | nil => simp
  | cons f fs ih =>
    intro a e he
    rcases List.mem_cons.mp he with rfl | he
    · exact le_trans (le_max_right a e.1) (le_foldl_max fs (max a e.1))
    · exact ih (max a f.1) e he

theorem foldl_max_cases (l : List (Int × Point)) :
    ∀ a : Int, l.foldl (fun m x => max m x.1) a = a
      ∨ ∃ e ∈ l, l.foldl (fun m x => max m x.1) a = e.1 := by
  induction l with
  | nil => intro a; exact Or.inl rfl
  | cons f fs ih =>
    intro a
    rcases ih (max a f.1) with h | ⟨e, he, h⟩
    · rcases max_cases a f.1 with ⟨hm, _⟩ | ⟨hm, _⟩
      · exact Or.inl (by rw [List.foldl_cons, h, hm])
      · exact Or.inr ⟨f, by simp, by rw [List.foldl_cons, h, hm]⟩
    · exact Or.inr ⟨e, List.mem_cons_of_mem _ he, by rw [List.foldl_cons, h]⟩

theorem le_qmax (l : List (Int × Point)) (e : Int × Point) (he : e ∈ l) :
    e.1 ≤ qmax l := by
  cases l with
  | nil => simp at he
  | cons f fs =>
    rw [qmax]
    rcases List.mem_cons.mp he with rfl | he
    · exact le_foldl_max fs e.1
    · exact mem_le_foldl_max fs f.1 e he

theorem qmax_mem (l : List (Int × Point)) (hl : l ≠ []) :
    ∃ e ∈ l, e.1 = qmax l := by
  cases l with
  | nil => exact absurd rfl hl
  | cons f fs =>
    rw [qmax]
    rcases foldl_max_cases fs f.1 with h | ⟨e, he, h⟩
    · exact ⟨f, by simp, h.symm⟩
    · exact ⟨e, List.mem_cons_of_mem _ he, h.symm⟩

/-- C5, counterexample: a queue of capacity `k = 2` holding a single entry
of key 5 has `max_key() = 5`, not `+∞`, although it holds fewer than `k`
entries — the source tests `m_q.empty()`, not `m_q.size() == m_n`. -/
theorem nbest_maxKey_counterexample :
    ((NBest.mk 2 []).add 5 []).q.length < 2
    ∧ ((NBest.mk 2 []).add 5 []).maxKey ≠ (⊤ : WithTop Int) := by decide

/-- C5, amended: `max_key()` is `+∞` exactly when the queue is empty;
when nonempty — in particular whenever it holds fewer than `k` but at
least one entry — it is the largest stored key, and in particular an upper
bound of every stored key.  (The latter is what still protects the
far-side recursion of `knn`: the pivot's distance is added before the
pruning check, so an underfull queue can never prune.) -/
theorem nbest_maxKey_spec (b : NBest) :
    (b.q = [] → b.maxKey = (⊤ : WithTop Int))
    ∧ (b.q ≠ [] → b.maxKey = ((qmax b.q : Int) : WithTop Int))
    ∧ (∀ e ∈ b.q, ((e.1 : Int) : WithTop Int) ≤ b.maxKey) := by
  refine ⟨?_, ?_, ?_⟩
  · intro h
    rw [NBest.maxKey, h]
  · intro h
    rw [NBest.maxKey]
    cases hq : b.q with
    | nil => exact absurd hq h
    | cons f fs => rfl
  · intro e he
    have hne : b.q ≠ [] := by
      intro h; rw [h] at he; simp at he
    have hkey : b.maxKey = ((qmax b.q : Int) : WithTop Int) := by
      rw [NBest.maxKey]
      cases hq : b.q with
      | nil => exact absurd hq hne
      | cons f fs => rfl
    rw [hkey]
    exact WithTop.coe_le_coe.mpr (le_qmax b.q e he)

/-- Witness for the amended C5 statement at a concrete queue. -/
theorem nbest_maxKey_spec_witness :
    (NBest.mk 3 [((4 : Int), ([] : Point))]).maxKey
      = ((4 : Int) : WithTop Int) := by
  have h := (nbest_maxKey_spec (NBest.mk 3 [((4 : Int), ([] : Point))])).2.1
    (by decide)
  rw [h]
  rfl

/-- C1: code bug.  On the five distinct 2-D points below (already laid out
exactly as `kd_sort` leaves them — the layout is forced for every
conforming `nth_element`), the verifier returns `false`: at the root,
`find_pivot` reconstructs pivot index 1 (the element `(5,1)` ties with the
middle element on axis 0), the builder's partition boundary was index 2,
and the subrange from index 2 on, `[(5,5),(6,0),(9,9)]`, is not partitioned
at axis 1. -/
theorem kd_sort_not_verified_bug :
    kd_sort 2 0 [[2,0],[5,1],[5,5],[6,0],[9,9]]
      = [[2,0],[5,1],[5,5],[6,0],[9,9]]
    ∧ kd_is_sorted 2 0 (kd_sort 2 0 [[2,0],[5,1],[5,5],[6,0],[9,9]])
      = false := by decide

/-- C10: code bug.  The instrumented `kd_lower_bound` reaches the
out-of-range read: probing `(3)` in the kd-sorted array `[(1),(2)]`
recurses into the empty right subrange at the end of the array, whose
size ≤ 1 base case dereferences `*first` with `first = last` one past the
array; likewise for an empty input range. -/
theorem kd_lower_bound_checked_oob :
    kd_is_sorted 1 0 [[1],[2]] = true
    ∧ kd_lower_bound_checked 1 0 [3] [[1],[2]] = none
    ∧ kd_lower_bound_checked 2 0 [0,0] [] = none := by decide

/-- C9, counterexample: in the kd-sorted array `[(0),(2)]` with probe
`(1)`, the probe is `less_nth`-below the pivot `(2)` (index 1), so the
near side is the left subrange `[(0)]`, whose candidate (index 0) ties
with the pivot in distance; the source keeps the *pivot*, returning
index 1, not the near-side index 0. -/
theorem nn_tie_counterexample :
    kd_is_sorted 1 0 [[0],[2]] = true
    ∧ find_pivot 0 [[0],[2]] = 1
    ∧ lessNth 0 [1] [2] = true
    ∧ sumOfSquares 1 [0] [1] = sumOfSquares 1 [2] [1]
    ∧ kd_nearest_neighbor 1 0 [1] [[0],[2]] = 1 := by decide

/-- C9, amended: in a range of size > 1, when the near-side recursion
returns a candidate that is *not strictly closer* than the pivot — in
particular when it ties — the pivot is adopted as the current best, and if
the far side is pruned the pivot index is returned, not the near-side
index. -/
theorem nnStep_keeps_pivot (d i : Nat) (v : Point) (xs : List Point)
    (s0 s2 : Nat)
    (hnear : ¬ (sumOfSquares d (xs.getD s0 []) v
        < sumOfSquares d (xs.getD (find_pivot i xs) []) v))
    (hfar : ¬ ((axisVal v i - axisVal (xs.getD (find_pivot i xs) []) i) ^ 2
        < sumOfSquares d (xs.getD (find_pivot i xs) []) v)) :
    nnStep d i v xs s0 s2 = find_pivot i xs := by
  rw [nnStep]
  by_cases h0 : s0 = xs.length
  · rw [if_pos h0, if_neg hfar]
  · rw [if_neg h0, if_neg hnear, if_neg hfar]

theorem nn_tie_keeps_pivot (d n i : Nat) (v : Point) (xs : List Point)
    (s0 : Nat) (hlen : 1 < xs.length)
    (hs0 : s0 = (if lessNth i v (xs.getD (find_pivot i xs) []) then
        kd_nearest_neighborF d n ((i+1) % d) v (xs.take (find_pivot i xs))
      else find_pivot i xs + 1
        + kd_nearest_neighborF d n ((i+1) % d) v
            (xs.drop (find_pivot i xs + 1))))
    (hnear : ¬ (sumOfSquares d (xs.getD s0 []) v
        < sumOfSquares d (xs.getD (find_pivot i xs) []) v))
    (hfar : ¬ ((axisVal v i - axisVal (xs.getD (find_pivot i xs) []) i) ^ 2
        < sumOfSquares d (xs.getD (find_pivot i xs) []) v)) :
    kd_nearest_neighborF d (n+1) i v xs = find_pivot i xs := by
  rw [kd_nearest_neighborF]
  rw [if_neg (by omega)]
  by_cases hsl : lessNth i v (xs.getD (find_pivot i xs) []) = true
  · rw [if_pos hsl] at hs0
    rw [if_pos hsl, ← hs0]
    exact nnStep_keeps_pivot d i v xs s0 _ hnear hfar
  · rw [if_neg hsl] at hs0
    rw [if_neg hsl, ← hs0]
    exact nnStep_keeps_pivot d i v xs s0 _ hnear hfar

/-- Witness for the amended C9 statement: the tie example from the
counterexample, where the theorem yields the pivot index. -/
theorem nn_tie_keeps_pivot_witness :
    kd_nearest_neighborF 1 3 0 [1] [[0],[2]] = find_pivot 0 [[0],[2]] :=
  nn_tie_keeps_pivot 1 2 0 [1] [[0],[2]] 0 (by decide) (by decide)
    (by decide) (by decide)

/-! Fuel irrelevance: each fuel-indexed function is independent of the
fuel as long as it exceeds the range length, so everything can be stated
for the wrappers and proved by strong induction on the length. -/

theorem find_pivot_le_middle (i : Nat) (xs : List Point) :
    find_pivot i xs ≤ middleOf xs := by
  rw [find_pivot]
  refine le_trans (takeWhile_length_le _ _) ?_
  simp

theorem kd_is_sortedF_irrel (d : Nat) :
    ∀ len xs i, xs.length ≤ len → ∀ n m, xs.length < n → xs.length < m →
      kd_is_sortedF d n i xs = kd_is_sortedF d m i xs := by
  intro len
  induction len with
  | zero =>
    intro xs i hx n m hn hm
    match n, m with
    | n'+1, m'+1 =>
      rw [kd_is_sortedF, kd_is_sortedF, if_pos (by omega), if_pos (by omega)]
  | succ L ih =>
    intro xs i hx n m hn hm
    match n, m with
    | n'+1, m'+1 =>
      rw [kd_is_sortedF, kd_is_sortedF]
      by_cases hc : xs.length < 2
      · rw [if_pos hc, if_pos hc]
      · rw [if_neg hc, if_neg hc]
        have hfp := find_pivot_le_middle i xs
        have hmid := middleOf_lt xs (by omega)
        have h1 : (xs.take (find_pivot i xs)).length ≤ L := by
          simp; omega
        have h2 : (xs.drop (find_pivot i xs + 1)).length ≤ L := by
          simp; omega
        rw [ih (xs.take (find_pivot i xs)) ((i+1) % d) h1 n' m'
            (by simp; omega) (by simp; omega),
          ih (xs.drop (find_pivot i xs + 1)) ((i+1) % d) h2 n' m'
            (by simp; omega) (by simp; omega)]

/-- The node structure, restated for the fuel-free wrappers. -/
theorem kd_is_sorted_nodeW (d i : Nat) (xs : List Point) (j : Nat)
    (P : Point) (hlen : 2 ≤ xs.length) (hjdef : j = find_pivot i xs)
    (hP : P = xs.getD j []) (hs : kd_is_sorted d i xs = true) :
    j ≤ middleOf xs
    ∧ j < xs.length
    ∧ (∀ x ∈ xs.take j, lessNth i x P = true)
    ∧ (∀ y ∈ xs.drop j, kdLess d i y P = false)
    ∧ kd_is_sorted d ((i+1) % d) (xs.take j) = true
    ∧ kd_is_sorted d ((i+1) % d) (xs.drop (j + 1)) = true := by
  rw [kd_is_sorted] at hs
  obtain ⟨h1, h2, h3, h4, h5, h6⟩ :=
    kd_is_sorted_node d i xs.length xs j P hlen hjdef hP hs
  have hfp := find_pivot_le_middle i xs
  have hmid := middleOf_lt xs hlen
  refine ⟨h1, h2, h3, h4, ?_, ?_⟩
  · rw [kd_is_sorted]
    rw [← kd_is_sortedF_irrel d xs.length (xs.take j) ((i+1) % d)
      (by simp only [List.length_take]; omega) xs.length
      ((xs.take j).length + 1)
      (by simp only [List.length_take]; omega) (by omega)]
    exact h5
  · rw [kd_is_sorted]
    rw [← kd_is_sortedF_irrel d xs.length (xs.drop (j+1)) ((i+1) % d)
      (by simp only [List.length_drop]; omega) xs.length
      ((xs.drop (j+1)).length + 1)
      (by simp only [List.length_drop]; omega) (by omega)]
    exact h6

/-! Lower bound: soundness and completeness on verified trees. -/

theorem getD_mem {α : Type} (l : List α) (n : Nat) (dflt : α)
    (h : n < l.length) : l.getD n dflt ∈ l := by
  rw [getD_eq_getElem _ _ _ h]
  exact List.getElem_mem h

theorem kd_lower_boundF_irrel (d : Nat) :
    ∀ len xs i v, xs.length ≤ len → ∀ n m, xs.length < n → xs.length < m →
      kd_lower_boundF d n i v xs = kd_lower_boundF d m i v xs := by
  intro len
  induction len with
  | zero =>
    intro xs i v hx n m hn hm
    match n, m with
    | n'+1, m'+1 =>
      have h1 : xs.length ≤ 1 := by omega
      rw [kd_lower_boundF, kd_lower_boundF, if_pos h1, if_pos h1]
  | succ L ih =>
    intro xs i v hx n m hn hm
    match n, m with
    | n'+1, m'+1 =>
      rw [kd_lower_boundF, kd_lower_boundF]
      by_cases hc : xs.length ≤ 1
      · rw [if_pos hc, if_pos hc]
      · rw [if_neg hc, if_neg hc]
        have hfp := find_pivot_le_middle i xs
        have hmid := middleOf_lt xs (by omega)
        rw [ih (xs.take (find_pivot i xs)) ((i+1) % d) v
            (by simp only [List.length_take]; omega) n' m'
            (by simp only [List.length_take]; omega)
            (by simp only [List.length_take]; omega),
          ih (xs.drop (find_pivot i xs + 1)) ((i+1) % d) v
            (by simp only [List.length_drop]; omega) n' m'
            (by simp only [List.length_drop]; omega)
            (by simp only [List.length_drop]; omega)]

theorem kd_lower_bound_node (d i : Nat) (v : Point) (xs : List Point)
    (hlen : 2 ≤ xs.length) :
    kd_lower_bound d i v xs
      = lbStep d i v xs
          (kd_lower_bound d ((i+1) % d) v (xs.take (find_pivot i xs)))
          (kd_lower_bound d ((i+1) % d) v (xs.drop (find_pivot i xs + 1)))
    := by
  have hfp := find_pivot_le_middle i xs
  have hmid := middleOf_lt xs hlen
  rw [kd_lower_bound, kd_lower_boundF, if_neg (by omega)]
  rw [kd_lower_boundF_irrel d xs.length (xs.take (find_pivot i xs))
      ((i+1) % d) v (by simp only [List.length_take]; omega) xs.length
      ((xs.take (find_pivot i xs)).length + 1)
      (by simp only [List.length_take]; omega) (by omega),
    kd_lower_boundF_irrel d xs.length (xs.drop (find_pivot i xs + 1))
      ((i+1) % d) v (by simp only [List.length_drop]; omega) xs.length
      ((xs.drop (find_pivot i xs + 1)).length + 1)
      (by simp only [List.length_drop]; omega) (by omega)]
  rfl

theorem kd_lower_bound_small (d i : Nat) (v : Point) (xs : List Point)
    (hlen : xs.length ≤ 1) :
    kd_lower_bound d i v xs
      = (if xs.length = 1 then
          (if noneLess d (xs.getD 0 []) v then 0 else 1) else 0) := by
  rw [kd_lower_bound, kd_lower_boundF, if_pos hlen]

/-- Soundness: the result is at most `last`, and a result strictly below
`last` points at an element satisfying `none_less(·, v)`. -/
theorem kd_lower_bound_sound (d : Nat) :
    ∀ len (xs : List Point), xs.length ≤ len → ∀ i v,
      kd_lower_bound d i v xs ≤ xs.length
      ∧ (kd_lower_bound d i v xs < xs.length →
          noneLess d (xs.getD (kd_lower_bound d i v xs) []) v = true) := by
  intro len
  induction len with
  | zero =>
    intro xs hx i v
    have h0 : xs.length = 0 := by omega
    rw [kd_lower_bound_small d i v xs (by omega), if_neg (by omega)]
    omega
  | succ L ih =>
    intro xs hx i v
    by_cases hc : xs.length ≤ 1
    · rw [kd_lower_bound_small d i v xs hc]
      by_cases h1 : xs.length = 1
      · rw [if_pos h1]
        by_cases hnl : noneLess d (xs.getD 0 []) v = true
        · rw [if_pos hnl]
          exact ⟨by omega, fun _ => hnl⟩
        · rw [if_neg hnl]
          omega
      · rw [if_neg h1]
        omega
    · have hlen : 2 ≤ xs.length := by omega
      have hfp := find_pivot_le_middle i xs
      have hmid := middleOf_lt xs hlen
      rw [kd_lower_bound_node d i v xs hlen, lbStep]
      obtain ⟨ihl1, ihl2⟩ := ih (xs.take (find_pivot i xs))
        (by simp only [List.length_take]; omega) ((i+1) % d) v
      obtain ⟨ihr1, ihr2⟩ := ih (xs.drop (find_pivot i xs + 1))
        (by simp only [List.length_drop]; omega) ((i+1) % d) v
      have htl : (xs.take (find_pivot i xs)).length = find_pivot i xs := by
        simp only [List.length_take]; omega
      have hdl : (xs.drop (find_pivot i xs + 1)).length
          = xs.length - (find_pivot i xs + 1) := by
        simp only [List.length_drop]
      by_cases hb1 : noneLess d (xs.getD (find_pivot i xs) []) v = true
      · rw [if_pos hb1]
        rw [htl] at ihl1
        refine ⟨by omega, fun _ => ?_⟩
        rcases Nat.eq_or_lt_of_le ihl1 with he | hlt
        · rw [he]; exact hb1
        · have := ihl2 (by rw [htl]; exact hlt)
          rwa [take_getD xs (find_pivot i xs) _ [] hlt] at this
      · rw [if_neg hb1]
        by_cases hb2 : allLess d (xs.getD (find_pivot i xs) []) v = true
        · rw [if_pos hb2]
          rw [hdl] at ihr1
          refine ⟨by omega, fun hres => ?_⟩
          have hrr : kd_lower_bound d ((i+1) % d) v
              (xs.drop (find_pivot i xs + 1))
              < (xs.drop (find_pivot i xs + 1)).length := by
            rw [hdl]; omega
          have := ihr2 hrr
          rwa [drop_getD xs (find_pivot i xs + 1) _ []] at this
        · rw [if_neg hb2]
          by_cases hb3 : kd_lower_bound d ((i+1) % d) v
                (xs.take (find_pivot i xs)) ≠ xs.length
              ∧ noneLess d (xs.getD (kd_lower_bound d ((i+1) % d) v
                  (xs.take (find_pivot i xs))) []) v = true
          · rw [if_pos hb3]
            rw [htl] at ihl1
            exact ⟨by omega, fun _ => hb3.2⟩
          · rw [if_neg hb3]
            by_cases hb4 : find_pivot i xs + 1
                  + kd_lower_bound d ((i+1) % d) v
                      (xs.drop (find_pivot i xs + 1)) ≠ xs.length
                ∧ noneLess d (xs.getD (find_pivot i xs + 1
                    + kd_lower_bound d ((i+1) % d) v
                        (xs.drop (find_pivot i xs + 1))) []) v = true
            · rw [if_pos hb4]
              rw [hdl] at ihr1
              exact ⟨by omega, fun _ => hb4.2⟩
            · rw [if_neg hb4]
              omega

theorem eqD_axis {d : Nat} {a v : Point} (h : eqD d a v) (i : Nat)
    (hi : i < d) : axisVal a i = axisVal v i := h i hi

theorem clone_noneLess (d : Nat) (hd : 0 < d) (a v : Point)
    (h : eqD d a v) : noneLess d a v = true ∧ noneLess d v a = true :=
  (eqD_iff_noneLess d hd a v).mpr h

/-- If a clone of `v` fails `kd_less(·, P)` (it lies in the right part)
while `P` dominates `v` componentwise, then `P` is itself a clone. -/
theorem clone_right_pivot (d i : Nat) (hd : 0 < d) (hi : i < d)
    (P c v : Point) (hcl : eqD d c v) (hnl : noneLess d P v = true)
    (hnk : kdLess d i c P = false) : eqD d P v := by
  by_cases hx : ∀ k, k < d → axisVal P k = axisVal c k
  · exact eqD_trans hx hcl
  · push_neg at hx
    rcases hx with ⟨k, hk, hkne⟩
    have hge : ∀ k, k < d → axisVal c k ≤ axisVal P k := by
      intro k' hk'
      have h1 := (noneLess_iff d hd P v).mp hnl k' hk'
      rw [← hcl k' hk'] at h1
      exact h1
    have := kdLess_true_of_ge_ne d i hd hi P c hge ⟨k, hk, hkne⟩
    rw [this] at hnk
    exact absurd hnk (by simp)

/-- Componentwise domination transfers `kd_less` to the dominated point:
if `v ≤ x` on every axis and `x` is `kd_less` than `P`, so is `v`. -/
theorem kdLess_mono_left (d i : Nat) (hd : 0 < d) (hi : i < d)
    (x v P : Point) (hge : noneLess d x v = true)
    (hxP : kdLess d i x P = true) : kdLess d i v P = true := by
  by_cases hvP : kdLess d i v P = true
  · exact hvP
  · by_cases hPv : kdLess d i P v = true
    · have hxv := kdLess_trans d i x P v hxP hPv
      have := kdLess_false_of_ge d i hd hi x v
        ((noneLess_iff d hd x v).mp hge)
      rw [this] at hxv
      exact absurd hxv (by simp)
    · have heq := kdLess_eqD d i hd hi v P
        (Bool.eq_false_iff.mpr hvP) (Bool.eq_false_iff.mpr hPv)
      rw [kdLess_congr_right d i hd hi x P v (eqD_symm heq)] at hxP
      have := kdLess_false_of_ge d i hd hi x v
        ((noneLess_iff d hd x v).mp hge)
      rw [this] at hxP
      exact absurd hxP (by simp)

/-- Completeness of `kd_lower_bound` on verified trees: if the array holds
a clone of the probe (equal on every axis below `d`), the result is the
index of the leftmost clone; in particular it points at a clone. -/
theorem kd_lower_bound_clone (d : Nat) (hd : 0 < d) :
    ∀ len (xs : List Point), xs.length ≤ len → ∀ i v, i < d →
      kd_is_sorted d i xs = true →
      ∀ t, t < xs.length → eqD d (xs.getD t []) v →
        kd_lower_bound d i v xs ≤ t
        ∧ kd_lower_bound d i v xs < xs.length
        ∧ eqD d (xs.getD (kd_lower_bound d i v xs) []) v := by
  intro len
  induction len with
  | zero =>
    intro xs hx i v hi hs t ht hcl
    omega
  | succ L ih =>
    intro xs hx i v hi hs t ht hcl
    by_cases hc : xs.length ≤ 1
    · have h1 : xs.length = 1 := by omega
      have ht0 : t = 0 := by omega
      rw [kd_lower_bound_small d i v xs hc, if_pos h1,
        if_pos (by rw [← ht0]; exact (clone_noneLess d hd _ v hcl).1)]
      rw [ht0] at hcl
      exact ⟨by omega, by omega, hcl⟩
    · have hlen : 2 ≤ xs.length := by omega
      have hfp := find_pivot_le_middle i xs
      have hmid := middleOf_lt xs hlen
      obtain ⟨hjm, hjlen, hN2, hN3, hrecL, hrecR⟩ :=
        kd_is_sorted_nodeW d i xs (find_pivot i xs)
          (xs.getD (find_pivot i xs) []) hlen rfl rfl hs
      have hJ : (i+1) % d < d := Nat.mod_lt _ hd
      have htl : (xs.take (find_pivot i xs)).length = find_pivot i xs := by
        simp only [List.length_take]; omega
      have hdl : (xs.drop (find_pivot i xs + 1)).length
          = xs.length - (find_pivot i xs + 1) := by
        simp only [List.length_drop]
      rw [kd_lower_bound_node d i v xs hlen, lbStep]
      -- abbreviations for the two recursive results
      obtain ⟨hsl1, hsl2⟩ := kd_lower_bound_sound d
        (xs.take (find_pivot i xs)).length (xs.take (find_pivot i xs))
        (le_refl _) ((i+1) % d) v
      -- case analysis on the three branches
      by_cases hb1 : noneLess d (xs.getD (find_pivot i xs) []) v = true
      · rw [if_pos hb1]
        by_cases htj : t < find_pivot i xs
        · -- clone strictly in the left subrange
          obtain ⟨hr1, hr2, hr3⟩ := ih (xs.take (find_pivot i xs))
            (by omega) ((i+1) % d) v hJ hrecL t (by omega)
            (by rwa [take_getD xs (find_pivot i xs) t [] htj])
          rw [take_getD xs (find_pivot i xs) _ []
            (by rw [htl] at hr2; exact hr2)] at hr3
          rw [htl] at hr2
          exact ⟨by omega, by omega, hr3⟩
        · -- the pivot element is itself a clone
          have hPclone : eqD d (xs.getD (find_pivot i xs) []) v := by
            rcases Nat.eq_or_lt_of_le (by omega : find_pivot i xs ≤ t)
              with he | hlt
            · rwa [← he] at hcl
            · have hmem : xs.getD t [] ∈ xs.drop (find_pivot i xs) := by
                have h1 : (xs.drop (find_pivot i xs)).getD
                    (t - find_pivot i xs) [] = xs.getD t [] := by
                  rw [drop_getD]
                  congr 1
                  omega
                rw [← h1]
                refine getD_mem _ _ _ ?_
                simp only [List.length_drop]
                omega
              exact clone_right_pivot d i hd hi _ _ v hcl hb1
                (hN3 _ hmem)
          -- the left recursion must fail, returning the pivot index
          have hrl : kd_lower_bound d ((i+1) % d) v
              (xs.take (find_pivot i xs)) = find_pivot i xs := by
            rcases Nat.eq_or_lt_of_le hsl1 with he | hlt
            · rw [he, htl]
            · rw [htl] at hlt
              have hx := hsl2 (by rw [htl]; exact hlt)
              have hmem : (xs.take (find_pivot i xs)).getD
                  (kd_lower_bound d ((i+1) % d) v
                    (xs.take (find_pivot i xs))) []
                  ∈ xs.take (find_pivot i xs) :=
                getD_mem _ _ _ (by rw [htl]; exact hlt)
              have hlessP := hN2 _ hmem
              simp only [lessNth, decide_eq_true_eq] at hlessP
              have hgei := (noneLess_iff d hd _ v).mp hx i hi
              have hPv := eqD_axis hPclone i hi
              omega
          rw [hrl]
          exact ⟨by omega, by omega, hPclone⟩
      · rw [if_neg hb1]
        by_cases hb2 : allLess d (xs.getD (find_pivot i xs) []) v = true
        · rw [if_pos hb2]
          -- no clone can sit at or left of the pivot
          have htj : find_pivot i xs < t := by
            rcases Nat.lt_trichotomy t (find_pivot i xs) with hlt | he | hgt
            · exfalso
              have hmem : xs.getD t [] ∈ xs.take (find_pivot i xs) := by
                rw [← take_getD xs (find_pivot i xs) t [] hlt]
                exact getD_mem _ _ _ (by rw [htl]; exact hlt)
              have hlessP := hN2 _ hmem
              simp only [lessNth, decide_eq_true_eq] at hlessP
              have h1 := (allLess_iff d hd _ v).mp hb2 i hi
              have h2 := eqD_axis hcl i hi
              omega
            · exfalso
              rw [← he] at hb1
              exact hb1 (clone_noneLess d hd _ v hcl).1
            · exact hgt
          obtain ⟨hr1, hr2, hr3⟩ := ih (xs.drop (find_pivot i xs + 1))
            (by omega) ((i+1) % d) v hJ hrecR (t - (find_pivot i xs + 1))
            (by rw [hdl]; omega)
            (by rw [drop_getD, show find_pivot i xs + 1
                + (t - (find_pivot i xs + 1)) = t by omega]; exact hcl)
          rw [hdl] at hr2
          rw [drop_getD] at hr3
          exact ⟨by omega, by omega, hr3⟩
        · rw [if_neg hb2]
          -- the pivot is not a clone
          have hPnot : ¬ eqD d (xs.getD (find_pivot i xs) []) v := by
            intro h
            exact hb1 (clone_noneLess d hd _ v h).1
          have htj : t ≠ find_pivot i xs := by
            intro h
            rw [h] at hcl
            exact hPnot hcl
          by_cases hex : ∃ u, u < find_pivot i xs
              ∧ eqD d (xs.getD u []) v
          · -- a clone exists in the left subrange: the left search finds
            -- the leftmost one and the first check accepts it
            obtain ⟨u, hu, hucl⟩ := hex
            obtain ⟨hr1, hr2, hr3⟩ := ih (xs.take (find_pivot i xs))
              (by omega) ((i+1) % d) v hJ hrecL u (by omega)
              (by rwa [take_getD xs (find_pivot i xs) u [] hu])
            rw [htl] at hr2
            rw [take_getD xs (find_pivot i xs) _ [] hr2] at hr3
            have hcheck : kd_lower_bound d ((i+1) % d) v
                  (xs.take (find_pivot i xs)) ≠ xs.length
                ∧ noneLess d (xs.getD (kd_lower_bound d ((i+1) % d) v
                    (xs.take (find_pivot i xs))) []) v = true := by
              exact ⟨by omega, (clone_noneLess d hd _ v hr3).1⟩
            rw [if_pos hcheck]
            have hle : kd_lower_bound d ((i+1) % d) v
                (xs.take (find_pivot i xs)) ≤ t := by
              rcases Nat.lt_or_ge t (find_pivot i xs) with hlt | hge
              · -- for t in the left part apply minimality directly
                obtain ⟨hq1, _, _⟩ := ih (xs.take (find_pivot i xs))
                  (by omega) ((i+1) % d) v hJ hrecL t (by omega)
                  (by rwa [take_getD xs (find_pivot i xs) t [] hlt])
                exact hq1
              · omega
            exact ⟨hle, by omega, hr3⟩
          · -- no clone left of the pivot: the clone is to the right, the
            -- first check must fail, and the right search finds it
            have htgt : find_pivot i xs < t := by
              rcases Nat.lt_trichotomy t (find_pivot i xs) with hlt | he | hgt
              · exact absurd ⟨t, hlt, hcl⟩ hex
              · exact absurd he htj
              · exact hgt
            have hcmem : xs.getD t [] ∈ xs.drop (find_pivot i xs) := by
              have h1 : (xs.drop (find_pivot i xs)).getD
                  (t - find_pivot i xs) [] = xs.getD t [] := by
                rw [drop_getD]
                congr 1
                omega
              rw [← h1]
              refine getD_mem _ _ _ ?_
              simp only [List.length_drop]
              omega
            have hvP : kdLess d ((0:Nat)+i) v
                (xs.getD (find_pivot i xs) []) = false := by
              have h1 := hN3 _ hcmem
              have := kdLess_congr_left d i hd hi v (xs.getD t [])
                (xs.getD (find_pivot i xs) []) (eqD_symm hcl)
              simp only [Nat.zero_add]
              rw [this]
              exact h1
            simp only [Nat.zero_add] at hvP
            have hcheck : ¬ (kd_lower_bound d ((i+1) % d) v
                  (xs.take (find_pivot i xs)) ≠ xs.length
                ∧ noneLess d (xs.getD (kd_lower_bound d ((i+1) % d) v
                    (xs.take (find_pivot i xs))) []) v = true) := by
              rintro ⟨hne, hnl⟩
              rcases Nat.eq_or_lt_of_le hsl1 with he | hlt
              · rw [he, htl] at hnl
                exact hb1 hnl
              · rw [htl] at hlt
                have hmem : (xs.take (find_pivot i xs)).getD
                    (kd_lower_bound d ((i+1) % d) v
                      (xs.take (find_pivot i xs))) []
                    ∈ xs.take (find_pivot i xs) :=
                  getD_mem _ _ _ (by rw [htl]; exact hlt)
                have hlessP := hN2 _ hmem
                rw [take_getD xs (find_pivot i xs) _ [] hlt] at hlessP
                have hxP : kdLess d i (xs.getD (kd_lower_bound d
                    ((i+1) % d) v (xs.take (find_pivot i xs))) [])
                    (xs.getD (find_pivot i xs) []) = true := by
                  refine kdLess_of_axis_lt d i _ _ ?_
                  simp only [lessNth, decide_eq_true_eq] at hlessP
                  exact hlessP
                have := kdLess_mono_left d i hd hi _ v _ hnl hxP
                rw [hvP] at this
                exact absurd this (by simp)
            rw [if_neg hcheck]
            obtain ⟨hr1, hr2, hr3⟩ := ih (xs.drop (find_pivot i xs + 1))
              (by omega) ((i+1) % d) v hJ hrecR (t - (find_pivot i xs + 1))
              (by rw [hdl]; omega)
              (by rw [drop_getD, show find_pivot i xs + 1
                  + (t - (find_pivot i xs + 1)) = t by omega]; exact hcl)
            rw [hdl] at hr2
            rw [drop_getD] at hr3
            have hcheck2 : find_pivot i xs + 1
                  + kd_lower_bound d ((i+1) % d) v
                      (xs.drop (find_pivot i xs + 1)) ≠ xs.length
                ∧ noneLess d (xs.getD (find_pivot i xs + 1
                    + kd_lower_bound d ((i+1) % d) v
                        (xs.drop (find_pivot i xs + 1))) []) v = true := by
              exact ⟨by omega, (clone_noneLess d hd _ v hr3).1⟩
            rw [if_pos hcheck2]
            exact ⟨by omega, by omega, hr3⟩

/-- C6: on a verified kd-sorted array, `kd_binary_search(A, v)` returns
true iff some element of `A` agrees with `v` on every axis
(`none_less(v, x) ∧ none_less(x, v)`); moreover it equals the test
`it = kd_lower_bound(A, v); it ≠ last ∧ none_less(v, *it)` literally. -/
theorem kd_binary_search_correct (d : Nat) (hd : 0 < d) (v : Point)
    (xs : List Point) (hs : kd_is_sorted d 0 xs = true) :
    (kd_binary_search d v xs = true
      ↔ ∃ x ∈ xs, noneLess d v x = true ∧ noneLess d x v = true)
    ∧ kd_binary_search d v xs
        = (decide (kd_lower_bound d 0 v xs ≠ xs.length)
          && noneLess d v (xs.getD (kd_lower_bound d 0 v xs) [])) := by
  refine ⟨?_, rfl⟩
  rw [kd_binary_search, Bool.and_eq_true, decide_eq_true_eq]
  constructor
  · rintro ⟨hne, hnl⟩
    obtain ⟨hs1, hs2⟩ := kd_lower_bound_sound d xs.length xs (le_refl _) 0 v
    have hlt : kd_lower_bound d 0 v xs < xs.length := by omega
    exact ⟨xs.getD (kd_lower_bound d 0 v xs) [], getD_mem _ _ _ hlt,
      hnl, hs2 hlt⟩
  · rintro ⟨x, hmem, h1, h2⟩
    obtain ⟨t, htlen, hteq⟩ := List.getElem_of_mem hmem
    have htD : xs.getD t [] = x := by
      rw [getD_eq_getElem _ _ _ htlen, hteq]
    have hclx : eqD d x v := (eqD_iff_noneLess d hd x v).mp ⟨h2, h1⟩
    obtain ⟨hr1, hr2, hr3⟩ := kd_lower_bound_clone d hd xs.length xs
      (le_refl _) 0 v hd hs t htlen (by rw [htD]; exact hclx)
    exact ⟨by omega, (clone_noneLess d hd _ v hr3).2⟩

/-- Witness for C6 at a concrete verified array. -/
theorem kd_binary_search_correct_witness :
    (kd_binary_search 1 [5] [[5]] = true
      ↔ ∃ x ∈ [[5]], noneLess 1 [5] x = true ∧ noneLess 1 x [5] = true)
    ∧ kd_binary_search 1 [5] [[5]]
        = (decide (kd_lower_bound 1 0 [5] [[5]] ≠ [[5]].length)
          && noneLess 1 [5] ([[5]].getD (kd_lower_bound 1 0 [5] [[5]]) []))
    :=
  kd_binary_search_correct 1 (by decide) [5] [[5]] (by decide)

/-! Upper bound: the analogous development. -/

theorem kd_upper_boundF_irrel (d : Nat) :
    ∀ len xs i v, xs.length ≤ len → ∀ n m, xs.length < n → xs.length < m →
      kd_upper_boundF d n i v xs = kd_upper_boundF d m i v xs := by
  intro len
  induction len with
  | zero =>
    intro xs i v hx n m hn hm
    match n, m with
    | n'+1, m'+1 =>
      have h1 : xs.length ≤ 1 := by omega
      rw [kd_upper_boundF, kd_upper_boundF, if_pos h1, if_pos h1]
  | succ L ih =>
    intro xs i v hx n m hn hm
    match n, m with
    | n'+1, m'+1 =>
      rw [kd_upper_boundF, kd_upper_boundF]
      by_cases hc : xs.length ≤ 1
      · rw [if_pos hc, if_pos hc]
      · rw [if_neg hc, if_neg hc]
        have hfp := find_pivot_le_middle i xs
        have hmid := middleOf_lt xs (by omega)
        rw [ih (xs.take (find_pivot i xs)) ((i+1) % d) v
            (by simp only [List.length_take]; omega) n' m'
            (by simp only [List.length_take]; omega)
            (by simp only [List.length_take]; omega),
          ih (xs.drop (find_pivot i xs + 1)) ((i+1) % d) v
            (by simp only [List.length_drop]; omega) n' m'
            (by simp only [List.length_drop]; omega)
            (by simp only [List.length_drop]; omega)]

theorem kd_upper_bound_node (d i : Nat) (v : Point) (xs : List Point)
    (hlen : 2 ≤ xs.length) :
    kd_upper_bound d i v xs
      = ubStep d i v xs
          (kd_upper_bound d ((i+1) % d) v (xs.take (find_pivot i xs)))
          (kd_upper_bound d ((i+1) % d) v (xs.drop (find_pivot i xs + 1)))
    := by
  have hfp := find_pivot_le_middle i xs
  have hmid := middleOf_lt xs hlen
  rw [kd_upper_bound, kd_upper_boundF, if_neg (by omega)]
  rw [kd_upper_boundF_irrel d xs.length (xs.take (find_pivot i xs))
      ((i+1) % d) v (by simp only [List.length_take]; omega) xs.length
      ((xs.take (find_pivot i xs)).length + 1)
      (by simp only [List.length_take]; omega) (by omega),
    kd_upper_boundF_irrel d xs.length (xs.drop (find_pivot i xs + 1))
      ((i+1) % d) v (by simp only [List.length_drop]; omega) xs.length
      ((xs.drop (find_pivot i xs + 1)).length + 1)
      (by simp only [List.length_drop]; omega) (by omega)]
  rfl

theorem kd_upper_bound_small (d i : Nat) (v : Point) (xs : List Point)
    (hlen : xs.length ≤ 1) :
    kd_upper_bound d i v xs
      = (if xs.length = 1 then
          (if allLess d v (xs.getD 0 []) then 0 else 1) else 0) := by
  rw [kd_upper_bound, kd_upper_boundF, if_pos hlen]

theorem kd_upper_bound_le (d : Nat) :
    ∀ len (xs : List Point), xs.length ≤ len → ∀ i v,
      kd_upper_bound d i v xs ≤ xs.length := by
  intro len
  induction len with
  | zero =>
    intro xs hx i v
    rw [kd_upper_bound_small d i v xs (by omega), if_neg (by omega)]
    omega
  | succ L ih =>
    intro xs hx i v
    by_cases hc : xs.length ≤ 1
    · rw [kd_upper_bound_small d i v xs hc]
      by_cases h1 : xs.length = 1
      · rw [if_pos h1]
        split <;> omega
      · rw [if_neg h1]
        omega
    · have hlen : 2 ≤ xs.length := by omega
      have hfp := find_pivot_le_middle i xs
      have hmid := middleOf_lt xs hlen
      rw [kd_upper_bound_node d i v xs hlen, ubStep]
      have ihl := ih (xs.take (find_pivot i xs))
        (by simp only [List.length_take]; omega) ((i+1) % d) v
      have ihr := ih (xs.drop (find_pivot i xs + 1))
        (by simp only [List.length_drop]; omega) ((i+1) % d) v
      simp only [List.length_take, List.length_drop] at ihl ihr
      split
      · omega
      · split
        · omega
        · split
          · omega
          · split <;> omega

/-- A clone of the probe is never `all_less`-above the probe. -/
theorem clone_not_allLess (d : Nat) (hd : 0 < d) (c v : Point)
    (h : eqD d c v) : allLess d v c = false := by
  rcases Bool.eq_false_or_eq_true (allLess d v c) with h' | h'
  · exfalso
    have h1 := (allLess_iff d hd v c).mp h' 0 hd
    have h2 := h 0 hd
    omega
  · exact h' 

/-- On verified trees, `kd_upper_bound` lies strictly beyond every index
holding a clone of the probe. -/
theorem kd_upper_bound_gt_clone (d : Nat) (hd : 0 < d) :
    ∀ len (xs : List Point), xs.length ≤ len → ∀ i v, i < d →
      kd_is_sorted d i xs = true →
      ∀ t, t < xs.length → eqD d (xs.getD t []) v →
        t < kd_upper_bound d i v xs := by
  intro len
  induction len with
  | zero =>
    intro xs hx i v hi hs t ht hcl
    omega
  | succ L ih =>
    intro xs hx i v hi hs t ht hcl
    by_cases hc : xs.length ≤ 1
    · have h1 : xs.length = 1 := by omega
      have ht0 : t = 0 := by omega
      rw [kd_upper_bound_small d i v xs hc, if_pos h1]
      rw [ht0] at hcl
      rw [if_neg (by rw [clone_not_allLess d hd _ v hcl]; simp)]
      omega
    · have hlen : 2 ≤ xs.length := by omega
      have hfp := find_pivot_le_middle i xs
      have hmid := middleOf_lt xs hlen
      obtain ⟨hjm, hjlen, hN2, hN3, hrecL, hrecR⟩ :=
        kd_is_sorted_nodeW d i xs (find_pivot i xs)
          (xs.getD (find_pivot i xs) []) hlen rfl rfl hs
      have hJ : (i+1) % d < d := Nat.mod_lt _ hd
      have htl : (xs.take (find_pivot i xs)).length = find_pivot i xs := by
        simp only [List.length_take]; omega
      have hdl : (xs.drop (find_pivot i xs + 1)).length
          = xs.length - (find_pivot i xs + 1) := by
        simp only [List.length_drop]
      rw [kd_upper_bound_node d i v xs hlen, ubStep]
      have hdropmem : find_pivot i xs ≤ t →
          xs.getD t [] ∈ xs.drop (find_pivot i xs) := by
        intro hge
        have h1 : (xs.drop (find_pivot i xs)).getD
            (t - find_pivot i xs) [] = xs.getD t [] := by
          rw [drop_getD]
          congr 1
          omega
        rw [← h1]
        refine getD_mem _ _ _ ?_
        simp only [List.length_drop]
        omega
      by_cases hb1 : allLess d v (xs.getD (find_pivot i xs) []) = true
      · rw [if_pos hb1]
        -- no clone sits at or beyond the pivot
        have htj : t < find_pivot i xs := by
          by_contra hge
          have hmem := hdropmem (by omega)
          have h1 := hN3 _ hmem
          have h2 := kdLess_congr_left d i hd hi v (xs.getD t [])
            (xs.getD (find_pivot i xs) []) (eqD_symm hcl)
          rw [← h2] at h1
          have h3 := kdLess_of_axis_lt d i v (xs.getD (find_pivot i xs) [])
            ((allLess_iff d hd v _).mp hb1 i hi)
          rw [h3] at h1
          exact absurd h1 (by simp)
        have := ih (xs.take (find_pivot i xs)) (by omega) ((i+1) % d) v hJ
          hrecL t (by omega)
          (by rwa [take_getD xs (find_pivot i xs) t [] htj])
        exact this
      · rw [if_neg hb1]
        by_cases hb2 : noneLess d v (xs.getD (find_pivot i xs) []) = true
        · rw [if_pos hb2]
          -- no clone sits strictly left of the pivot
          have htj : find_pivot i xs ≤ t := by
            by_contra hlt
            have hmem : xs.getD t [] ∈ xs.take (find_pivot i xs) := by
              rw [← take_getD xs (find_pivot i xs) t [] (by omega)]
              exact getD_mem _ _ _ (by rw [htl]; omega)
            have h1 := hN2 _ hmem
            simp only [lessNth, decide_eq_true_eq] at h1
            have h2 := (noneLess_iff d hd v _).mp hb2 i hi
            have h3 := eqD_axis hcl i hi
            omega
          rcases Nat.eq_or_lt_of_le htj with he | hlt
          · omega
          · have := ih (xs.drop (find_pivot i xs + 1)) (by omega)
              ((i+1) % d) v hJ hrecR (t - (find_pivot i xs + 1))
              (by rw [hdl]; omega)
              (by rw [drop_getD, show find_pivot i xs + 1
                  + (t - (find_pivot i xs + 1)) = t by omega]; exact hcl)
            omega
        · -- mixed: the pivot is not a clone
          rw [if_neg hb2]
          have hPnot : ¬ eqD d (xs.getD (find_pivot i xs) []) v := by
            intro h
            have := (eqD_iff_noneLess d hd v
              (xs.getD (find_pivot i xs) [])).mpr (eqD_symm h)
            exact hb2 this.1
          by_cases hchk : kd_upper_bound d ((i+1) % d) v
                (xs.take (find_pivot i xs)) ≠ xs.length
              ∧ allLess d v (xs.getD (kd_upper_bound d ((i+1) % d) v
                  (xs.take (find_pivot i xs))) []) = true
          · rw [if_pos hchk]
            obtain ⟨hne, hdom⟩ := hchk
            have hrlb := kd_upper_bound_le d
              (xs.take (find_pivot i xs)).length (xs.take (find_pivot i xs))
              (le_refl _) ((i+1) % d) v
            rw [htl] at hrlb
            -- the accepted element is strictly left of the pivot
            have hrlt : kd_upper_bound d ((i+1) % d) v
                (xs.take (find_pivot i xs)) < find_pivot i xs := by
              rcases Nat.eq_or_lt_of_le hrlb with he | hlt
              · exfalso
                rw [he] at hdom
                exact absurd hdom (by
                  intro hx
                  rw [hx] at hb1
                  exact hb1 rfl)
              · exact hlt
            -- hence no clone can be at or beyond the pivot
            have htj : t < find_pivot i xs := by
              by_contra hge
              have hmem := hdropmem (by omega)
              have h1 := hN3 _ hmem
              have hcax := axis_ge_of_not_kdLess d i _ _ h1
              have hxmem : xs.getD (kd_upper_bound d ((i+1) % d) v
                  (xs.take (find_pivot i xs))) []
                  ∈ xs.take (find_pivot i xs) := by
                rw [← take_getD xs (find_pivot i xs) _ [] hrlt]
                exact getD_mem _ _ _ (by rw [htl]; exact hrlt)
              have h2 := hN2 _ hxmem
              simp only [lessNth, decide_eq_true_eq] at h2
              have h3 := (allLess_iff d hd v _).mp hdom i hi
              have h4 := eqD_axis hcl i hi
              omega
            have := ih (xs.take (find_pivot i xs)) (by omega) ((i+1) % d) v
              hJ hrecL t (by omega)
              (by rwa [take_getD xs (find_pivot i xs) t [] htj])
            exact this
          · rw [if_neg hchk]
            have htne : t ≠ find_pivot i xs := by
              intro h
              rw [h] at hcl
              exact hPnot hcl
            by_cases hchk2 : find_pivot i xs + 1
                  + kd_upper_bound d ((i+1) % d) v
                      (xs.drop (find_pivot i xs + 1)) ≠ xs.length
                ∧ allLess d v (xs.getD (find_pivot i xs + 1
                    + kd_upper_bound d ((i+1) % d) v
                        (xs.drop (find_pivot i xs + 1))) []) = true
            · rw [if_pos hchk2]
              rcases Nat.lt_or_ge t (find_pivot i xs) with hlt | hge
              · omega
              · have hlt2 : find_pivot i xs < t := by omega
                have := ih (xs.drop (find_pivot i xs + 1)) (by omega)
                  ((i+1) % d) v hJ hrecR (t - (find_pivot i xs + 1))
                  (by rw [hdl]; omega)
                  (by rw [drop_getD, show find_pivot i xs + 1
                      + (t - (find_pivot i xs + 1)) = t by omega]; exact hcl)
                omega
            · rw [if_neg hchk2]
              omega

/-- C8, counterexample: the 3-D array below holds exactly three copies of
`(7,7,7)`; after `kd_sort` the copies sit at positions 1, 3 and 4 with
`(9,0,0)` between them at position 2, and `kd_equal_range` returns the
span `[1, 5)`, which contains `(9,0,0)` and hence is not "exactly the
three copies in some order". -/
theorem kd_equal_range_span_counterexample :
    (([[7,7,7],[7,7,7],[7,7,7],[9,0,0],[0,0,0]] : List Point).count
        [7,7,7] = 3)
    ∧ kd_sort 3 0 [[7,7,7],[7,7,7],[7,7,7],[9,0,0],[0,0,0]]
        = [[0,0,0],[7,7,7],[9,0,0],[7,7,7],[7,7,7]]
    ∧ kd_equal_range 3 [7,7,7]
        (kd_sort 3 0 [[7,7,7],[7,7,7],[7,7,7],[9,0,0],[0,0,0]]) = (1, 5)
    ∧ ([9,0,0] : Point) ∈ ((kd_sort 3 0
        [[7,7,7],[7,7,7],[7,7,7],[9,0,0],[0,0,0]]).drop 1).take 4
    ∧ ¬ (((kd_sort 3 0
        [[7,7,7],[7,7,7],[7,7,7],[9,0,0],[0,0,0]]).drop 1).take 4).Perm
          [[7,7,7],[7,7,7],[7,7,7]] := by decide

/-- C8, amended: on an array that is verified kd-sorted, the half-open
span `[lb, ub)` returned by `kd_equal_range(A, v)` contains every index
holding a copy of `v` (equal on all `d` axes); the span may also contain
other elements, as the counterexample shows.  (The hypothesis is the
verifier's invariant: by C1, `kd_sort` output need not satisfy it when
axis ties occur.) -/
theorem kd_equal_range_contains_clones (d : Nat) (hd : 0 < d) (v : Point)
    (xs : List Point) (hs : kd_is_sorted d 0 xs = true) (t : Nat)
    (ht : t < xs.length) (hcl : eqD d (xs.getD t []) v) :
    (kd_equal_range d v xs).1 ≤ t ∧ t < (kd_equal_range d v xs).2 := by
  rw [kd_equal_range]
  constructor
  · exact (kd_lower_bound_clone d hd xs.length xs (le_refl _) 0 v hd hs
      t ht hcl).1
  · exact kd_upper_bound_gt_clone d hd xs.length xs (le_refl _) 0 v hd hs
      t ht hcl

/-- Witness for the amended C8 statement: a verified 3-D array made of
three copies of `(7,7,7)`, probing `(7,7,7)` — every copy's index lies in
the span. -/
theorem kd_equal_range_contains_clones_witness :
    (kd_equal_range 3 [7,7,7] [[7,7,7],[7,7,7],[7,7,7]]).1 ≤ 2
    ∧ 2 < (kd_equal_range 3 [7,7,7] [[7,7,7],[7,7,7],[7,7,7]]).2 :=
  kd_equal_range_contains_clones 3 (by decide) [7,7,7]
    [[7,7,7],[7,7,7],[7,7,7]] (by decide) 2 (by decide)
    (by intro k hk; interval_cases k <;> rfl)

/-! Range query. -/

theorem kd_range_queryF_irrel (d : Nat) :
    ∀ len xs i lo hi, xs.length ≤ len →
      ∀ n m, xs.length < n → xs.length < m →
        kd_range_queryF d n i lo hi xs = kd_range_queryF d m i lo hi xs := by
  intro len
  induction len with
  | zero =>
    intro xs i lo hi hx n m hn hm
    match n, m with
    | n'+1, m'+1 =>
      have h1 : ¬ 32 < xs.length := by omega
      rw [kd_range_queryF, kd_range_queryF, if_neg h1, if_neg h1]
  | succ L ih =>
    intro xs i lo hi hx n m hn hm
    match n, m with
    | n'+1, m'+1 =>
      rw [kd_range_queryF, kd_range_queryF]
      by_cases hc : 32 < xs.length
      · rw [if_pos hc, if_pos hc]
        have hfp := find_pivot_le_middle i xs
        have hmid := middleOf_lt xs (by omega)
        rw [ih (xs.take (find_pivot i xs)) ((i+1) % d) lo hi
            (by simp only [List.length_take]; omega) n' m'
            (by simp only [List.length_take]; omega)
            (by simp only [List.length_take]; omega),
          ih (xs.drop (find_pivot i xs + 1)) ((i+1) % d) lo hi
            (by simp only [List.length_drop]; omega) n' m'
            (by simp only [List.length_drop]; omega)
            (by simp only [List.length_drop]; omega)]
      · rw [if_neg hc, if_neg hc]

theorem kd_range_query_small (d i : Nat) (lo hi : Point) (xs : List Point)
    (hlen : ¬ 32 < xs.length) :
    kd_range_query d i lo hi xs
      = xs.filter (fun x => within d x lo hi) := by
  rw [kd_range_query, kd_range_queryF, if_neg hlen]

theorem kd_range_query_node (d i : Nat) (lo hi : Point) (xs : List Point)
    (hlen : 32 < xs.length) :
    kd_range_query d i lo hi xs
      = (if within d (xs.getD (find_pivot i xs) []) lo hi then
            [xs.getD (find_pivot i xs) []] else [])
        ++ (if ! lessNth i (xs.getD (find_pivot i xs) []) lo then
              kd_range_query d ((i+1) % d) lo hi
                (xs.take (find_pivot i xs))
            else [])
        ++ (if lessNth i (xs.getD (find_pivot i xs) []) hi then
              kd_range_query d ((i+1) % d) lo hi
                (xs.drop (find_pivot i xs + 1))
            else []) := by
  have hfp := find_pivot_le_middle i xs
  have hmid := middleOf_lt xs (by omega)
  rw [kd_range_query, kd_range_queryF, if_pos hlen]
  rw [kd_range_queryF_irrel d xs.length (xs.take (find_pivot i xs))
      ((i+1) % d) lo hi (by simp only [List.length_take]; omega) xs.length
      ((xs.take (find_pivot i xs)).length + 1)
      (by simp only [List.length_take]; omega) (by omega),
    kd_range_queryF_irrel d xs.length (xs.drop (find_pivot i xs + 1))
      ((i+1) % d) lo hi (by simp only [List.length_drop]; omega) xs.length
      ((xs.drop (find_pivot i xs + 1)).length + 1)
      (by simp only [List.length_drop]; omega) (by omega)]
  rfl

theorem perm_assemble {α : Type} (A B C FL FR : List α)
    (hB : B.Perm FL) (hC : C.Perm FR) :
    (A ++ B ++ C).Perm (FL ++ (A ++ FR)) := by
  refine List.Perm.trans (List.Perm.append_right C
    (List.perm_append_comm)) ?_
  rw [List.append_assoc]
  exact List.Perm.append hB (List.Perm.append_left A hC)

/-- C3: on a verified kd-sorted array, the multiset emitted by
`kd_range_query(A, lo, hi)` equals the multiset of elements of `A` inside
the half-open box `[lo, hi)` (`within`, i.e. `none_less(x, lo)` and
`all_less(x, hi)` componentwise). -/
theorem kd_range_query_perm (d : Nat) (hd : 0 < d) :
    ∀ len (xs : List Point), xs.length ≤ len → ∀ i lo hi, i < d →
      kd_is_sorted d i xs = true →
      (kd_range_query d i lo hi xs).Perm
        (xs.filter (fun x => within d x lo hi)) := by
  intro len
  induction len with
  | zero =>
    intro xs hx i lo hi hi' hs
    rw [kd_range_query_small d i lo hi xs (by omega)]
  | succ L ih =>
    intro xs hx i lo hi hiD hs
    by_cases hc : 32 < xs.length
    · have hlen : 2 ≤ xs.length := by omega
      have hfp := find_pivot_le_middle i xs
      have hmid := middleOf_lt xs hlen
      obtain ⟨hjm, hjlen, hN2, hN3, hrecL, hrecR⟩ :=
        kd_is_sorted_nodeW d i xs (find_pivot i xs)
          (xs.getD (find_pivot i xs) []) hlen rfl rfl hs
      have hJ : (i+1) % d < d := Nat.mod_lt _ hd
      have htl : (xs.take (find_pivot i xs)).length = find_pivot i xs := by
        simp only [List.length_take]; omega
      rw [kd_range_query_node d i lo hi xs hc]
      have hxs : xs = xs.take (find_pivot i xs)
          ++ xs.getD (find_pivot i xs) []
            :: xs.drop (find_pivot i xs + 1) := by
        conv_lhs => rw [← List.take_append_drop (find_pivot i xs) xs]
        rw [drop_eq_getD_cons xs (find_pivot i xs) [] hjlen]
      have hBperm : (if ! lessNth i (xs.getD (find_pivot i xs) []) lo then
            kd_range_query d ((i+1) % d) lo hi (xs.take (find_pivot i xs))
          else []).Perm
          ((xs.take (find_pivot i xs)).filter
            (fun x => within d x lo hi)) := by
        by_cases hp : lessNth i (xs.getD (find_pivot i xs) []) lo = true
        · rw [if_neg (by rw [hp]; simp)]
          have hnil : (xs.take (find_pivot i xs)).filter
              (fun x => within d x lo hi) = [] := by
            rw [List.filter_eq_nil_iff]
            intro x hmem
            have h1 := hN2 _ hmem
            simp only [lessNth, decide_eq_true_eq] at h1 hp
            simp only [within, Bool.and_eq_true, not_and]
            intro hnl
            exfalso
            have := (noneLess_iff d hd x lo).mp hnl i hiD
            omega
          rw [hnil]
        · rw [if_pos (by rw [Bool.eq_false_iff.mpr hp]; simp)]
          exact ih (xs.take (find_pivot i xs))
            (by simp only [List.length_take]; omega) ((i+1) % d)
            lo hi hJ hrecL
      have hCperm : (if lessNth i (xs.getD (find_pivot i xs) []) hi then
            kd_range_query d ((i+1) % d) lo hi
              (xs.drop (find_pivot i xs + 1))
          else []).Perm
          ((xs.drop (find_pivot i xs + 1)).filter
            (fun x => within d x lo hi)) := by
        by_cases hp : lessNth i (xs.getD (find_pivot i xs) []) hi = true
        · rw [if_pos hp]
          exact ih (xs.drop (find_pivot i xs + 1))
            (by simp only [List.length_drop]; omega) ((i+1) % d)
            lo hi hJ hrecR
        · rw [if_neg hp]
          have hnil : (xs.drop (find_pivot i xs + 1)).filter
              (fun x => within d x lo hi) = [] := by
            rw [List.filter_eq_nil_iff]
            intro y hmem
            have hymem : y ∈ xs.drop (find_pivot i xs) := by
              have heq : (xs.drop (find_pivot i xs)).drop 1
                  = xs.drop (find_pivot i xs + 1) := by
                rw [List.drop_drop]
              exact List.mem_of_mem_drop (heq.symm ▸ hmem)
            have h1 := hN3 _ hymem
            have hax := axis_ge_of_not_kdLess d i _ _ h1
            simp only [lessNth, decide_eq_true_eq, not_lt] at hp
            simp only [within, Bool.and_eq_true, not_and]
            intro _
            intro hal
            have := (allLess_iff d hd y hi).mp hal i hiD
            omega
          rw [hnil]
      -- assemble
      conv_rhs => rw [hxs]
      rw [List.filter_append, List.filter_cons]
      have h3 : (if within d (xs.getD (find_pivot i xs) []) lo hi = true
            then [xs.getD (find_pivot i xs) []] else [])
          ++ (xs.drop (find_pivot i xs + 1)).filter
              (fun x => within d x lo hi)
          = (if within d (xs.getD (find_pivot i xs) []) lo hi = true
            then xs.getD (find_pivot i xs) []
              :: (xs.drop (find_pivot i xs + 1)).filter
                (fun x => within d x lo hi)
            else (xs.drop (find_pivot i xs + 1)).filter
              (fun x => within d x lo hi)) := by
        by_cases hw : within d (xs.getD (find_pivot i xs) []) lo hi = true
        · rw [if_pos hw, if_pos hw]
          rfl
        · rw [if_neg hw, if_neg hw]
          rfl
      rw [← h3]
      exact perm_assemble _ _ _ _ _ hBperm hCperm
    · rw [kd_range_query_small d i lo hi xs hc]

/-- Witness for C3 at a concrete verified array and box. -/
theorem kd_range_query_perm_witness :
    (kd_range_query 2 0 [1,1] [4,4] [[1,1],[2,2],[3,3]]).Perm
      ([[1,1],[2,2],[3,3]].filter (fun x => within 2 x [1,1] [4,4])) :=
  kd_range_query_perm 2 (by decide) 3 [[1,1],[2,2],[3,3]] (by decide)
    0 [1,1] [4,4] (by decide) (by decide)

/-! Nearest neighbor. -/

theorem kd_nearest_neighborF_irrel (d : Nat) :
    ∀ len xs i v, xs.length ≤ len → ∀ n m, xs.length < n → xs.length < m →
      kd_nearest_neighborF d n i v xs = kd_nearest_neighborF d m i v xs := by
  intro len
  induction len with
  | zero =>
    intro xs i v hx n m hn hm
    match n, m with
    | n'+1, m'+1 =>
      have h1 : xs.length ≤ 1 := by omega
      rw [kd_nearest_neighborF, kd_nearest_neighborF, if_pos h1, if_pos h1]
  | succ L ih =>
    intro xs i v hx n m hn hm
    match n, m with
    | n'+1, m'+1 =>
      rw [kd_nearest_neighborF, kd_nearest_neighborF]
      by_cases hc : xs.length ≤ 1
      · rw [if_pos hc, if_pos hc]
      · rw [if_neg hc, if_neg hc]
        have hfp := find_pivot_le_middle i xs
        have hmid := middleOf_lt xs (by omega)
        rw [ih (xs.take (find_pivot i xs)) ((i+1) % d) v
            (by simp only [List.length_take]; omega) n' m'
            (by simp only [List.length_take]; omega)
            (by simp only [List.length_take]; omega),
          ih (xs.drop (find_pivot i xs + 1)) ((i+1) % d) v
            (by simp only [List.length_drop]; omega) n' m'
            (by simp only [List.length_drop]; omega)
            (by simp only [List.length_drop]; omega)]

theorem kd_nearest_neighbor_small (d i : Nat) (v : Point)
    (xs : List Point) (hlen : xs.length ≤ 1) :
    kd_nearest_neighbor d i v xs = 0 := by
  rw [kd_nearest_neighbor, kd_nearest_neighborF, if_pos hlen]

theorem kd_nearest_neighbor_node (d i : Nat) (v : Point) (xs : List Point)
    (hlen : 2 ≤ xs.length) :
    kd_nearest_neighbor d i v xs
      = (if lessNth i v (xs.getD (find_pivot i xs) []) then
          nnStep d i v xs
            (kd_nearest_neighbor d ((i+1) % d) v (xs.take (find_pivot i xs)))
            (find_pivot i xs + 1
              + kd_nearest_neighbor d ((i+1) % d) v
                  (xs.drop (find_pivot i xs + 1)))
        else
          nnStep d i v xs
            (find_pivot i xs + 1
              + kd_nearest_neighbor d ((i+1) % d) v
                  (xs.drop (find_pivot i xs + 1)))
            (kd_nearest_neighbor d ((i+1) % d) v
              (xs.take (find_pivot i xs)))) := by
  have hfp := find_pivot_le_middle i xs
  have hmid := middleOf_lt xs hlen
  rw [kd_nearest_neighbor, kd_nearest_neighborF, if_neg (by omega)]
  rw [kd_nearest_neighborF_irrel d xs.length (xs.take (find_pivot i xs))
      ((i+1) % d) v (by simp only [List.length_take]; omega) xs.length
      ((xs.take (find_pivot i xs)).length + 1)
      (by simp only [List.length_take]; omega) (by omega),
    kd_nearest_neighborF_irrel d xs.length (xs.drop (find_pivot i xs + 1))
      ((i+1) % d) v (by simp only [List.length_drop]; omega) xs.length
      ((xs.drop (find_pivot i xs + 1)).length + 1)
      (by simp only [List.length_drop]; omega) (by omega)]
  rfl

/-- Correctness of one `nnStep`, abstracted over the near and far element
lists and the recursive results. -/
theorem nnStep_min_abstract (d i : Nat) (v : Point) (xs : List Point)
    (s0 s2 : Nat) (N F : List Point)
    (hjlen : find_pivot i xs < xs.length)
    (hs0le : s0 ≤ xs.length) (hs2le : s2 ≤ xs.length)
    (hnearP : N = [] → s0 = xs.length
      ∨ xs.getD s0 [] = xs.getD (find_pivot i xs) [])
    (hnearmin : N ≠ [] → s0 < xs.length
      ∧ ∀ x ∈ N, sumOfSquares d (xs.getD s0 []) v ≤ sumOfSquares d x v)
    (hfarP : F = [] → s2 = xs.length
      ∨ xs.getD s2 [] = xs.getD (find_pivot i xs) [])
    (hfarmin : F ≠ [] → s2 < xs.length
      ∧ ∀ x ∈ F, sumOfSquares d (xs.getD s2 []) v ≤ sumOfSquares d x v)
    (hFax : ∀ x ∈ F,
      (axisVal v i - axisVal (xs.getD (find_pivot i xs) []) i) ^ 2
        ≤ sumOfSquares d x v)
    (hcover : ∀ x ∈ xs, x ∈ N ∨ x ∈ F
      ∨ sumOfSquares d x v
          = sumOfSquares d (xs.getD (find_pivot i xs) []) v) :
    nnStep d i v xs s0 s2 < xs.length
    ∧ ∀ x ∈ xs, sumOfSquares d (xs.getD (nnStep d i v xs s0 s2) []) v
        ≤ sumOfSquares d x v := by
  -- distances used throughout
  have hFside : ∀ x ∈ F,
      ¬ ((axisVal v i - axisVal (xs.getD (find_pivot i xs) []) i) ^ 2
          < sumOfSquares d (xs.getD (find_pivot i xs) []) v) →
        sumOfSquares d (xs.getD (find_pivot i xs) []) v
          ≤ sumOfSquares d x v := by
    intro x hx hax
    exact le_trans (by omega) (hFax x hx)
  -- case tree of nnStep
  rw [nnStep]
  by_cases h0 : s0 = xs.length
  · have hN : N = [] := by
      by_contra hne
      have := (hnearmin hne).1
      omega
    rw [if_pos h0]
    by_cases hax : (axisVal v i
        - axisVal (xs.getD (find_pivot i xs) []) i) ^ 2
        < sumOfSquares d (xs.getD (find_pivot i xs) []) v
    · rw [if_pos hax]
      by_cases hs2 : s2 ≠ xs.length
          ∧ sumOfSquares d (xs.getD s2 []) v
            < sumOfSquares d (xs.getD (find_pivot i xs) []) v
      · rw [if_pos hs2]
        have hFne : F ≠ [] := by
          intro hF
          rcases hfarP hF with h | h
          · exact hs2.1 h
          · rw [h] at hs2
            omega
        refine ⟨by omega, ?_⟩
        intro x hx
        rcases hcover x hx with hm | hm | hm
        · rw [hN] at hm; simp at hm
        · exact (hfarmin hFne).2 x hm
        · omega
      · rw [if_neg hs2]
        refine ⟨by omega, ?_⟩
        intro x hx
        rcases hcover x hx with hm | hm | hm
        · rw [hN] at hm; simp at hm
        · by_cases hF : F = []
          · rw [hF] at hm; simp at hm
          · have h1 := (hfarmin hF).2 x hm
            have h2 : ¬ (sumOfSquares d (xs.getD s2 []) v
                < sumOfSquares d (xs.getD (find_pivot i xs) []) v) := by
              intro hlt
              exact hs2 ⟨by have := (hfarmin hF).1; omega, hlt⟩
            omega
        · omega
    · rw [if_neg hax]
      refine ⟨by omega, ?_⟩
      intro x hx
      rcases hcover x hx with hm | hm | hm
      · rw [hN] at hm; simp at hm
      · exact hFside x hm hax
      · omega
  · rw [if_neg h0]
    have hs0lt : s0 < xs.length := by omega
    by_cases hsd : sumOfSquares d (xs.getD s0 []) v
        < sumOfSquares d (xs.getD (find_pivot i xs) []) v
    · rw [if_pos hsd]
      have hNne : N ≠ [] := by
        intro hN
        rcases hnearP hN with h | h
        · omega
        · rw [h] at hsd
          omega
      by_cases hax : (axisVal v i
          - axisVal (xs.getD (find_pivot i xs) []) i) ^ 2
          < sumOfSquares d (xs.getD s0 []) v
      · rw [if_pos hax]
        by_cases hs2 : s2 ≠ xs.length
            ∧ sumOfSquares d (xs.getD s2 []) v
              < sumOfSquares d (xs.getD s0 []) v
        · rw [if_pos hs2]
          have hFne : F ≠ [] := by
            intro hF
            rcases hfarP hF with h | h
            · exact hs2.1 h
            · rw [h] at hs2
              omega
          refine ⟨by omega, ?_⟩
          intro x hx
          rcases hcover x hx with hm | hm | hm
          · have := (hnearmin hNne).2 x hm
            omega
          · exact (hfarmin hFne).2 x hm
          · omega
        · rw [if_neg hs2]
          refine ⟨by omega, ?_⟩
          intro x hx
          rcases hcover x hx with hm | hm | hm
          · exact (hnearmin hNne).2 x hm
          · by_cases hF : F = []
            · rw [hF] at hm; simp at hm
            · have h1 := (hfarmin hF).2 x hm
              have h2 : ¬ (sumOfSquares d (xs.getD s2 []) v
                  < sumOfSquares d (xs.getD s0 []) v) := by
                intro hlt
                exact hs2 ⟨by have := (hfarmin hF).1; omega, hlt⟩
              omega
          · omega
      · rw [if_neg hax]
        refine ⟨by omega, ?_⟩
        intro x hx
        rcases hcover x hx with hm | hm | hm
        · exact (hnearmin hNne).2 x hm
        · have h1 := hFax x hm
          omega
        · omega
    · rw [if_neg hsd]
      by_cases hax : (axisVal v i
          - axisVal (xs.getD (find_pivot i xs) []) i) ^ 2
          < sumOfSquares d (xs.getD (find_pivot i xs) []) v
      · rw [if_pos hax]
        by_cases hs2 : s2 ≠ xs.length
            ∧ sumOfSquares d (xs.getD s2 []) v
              < sumOfSquares d (xs.getD (find_pivot i xs) []) v
        · rw [if_pos hs2]
          have hFne : F ≠ [] := by
            intro hF
            rcases hfarP hF with h | h
            · exact hs2.1 h
            · rw [h] at hs2
              omega
          refine ⟨by omega, ?_⟩
          intro x hx
          rcases hcover x hx with hm | hm | hm
          · by_cases hN : N = []
            · rw [hN] at hm; simp at hm
            · have := (hnearmin hN).2 x hm
              omega
          · exact (hfarmin hFne).2 x hm
          · omega
        · rw [if_neg hs2]
          refine ⟨by omega, ?_⟩
          intro x hx
          rcases hcover x hx with hm | hm | hm
          · by_cases hN : N = []
            · rw [hN] at hm; simp at hm
            · have := (hnearmin hN).2 x hm
              omega
          · by_cases hF : F = []
            · rw [hF] at hm; simp at hm
            · have h1 := (hfarmin hF).2 x hm
              have h2 : ¬ (sumOfSquares d (xs.getD s2 []) v
                  < sumOfSquares d (xs.getD (find_pivot i xs) []) v) := by
                intro hlt
                exact hs2 ⟨by have := (hfarmin hF).1; omega, hlt⟩
              omega
          · omega
      · rw [if_neg hax]
        refine ⟨by omega, ?_⟩
        intro x hx
        rcases hcover x hx with hm | hm | hm
        · by_cases hN : N = []
          · rw [hN] at hm; simp at hm
          · have := (hnearmin hN).2 x hm
            omega
        · exact hFside x hm hax
        · omega

/-- C2: on a nonempty verified kd-sorted array, `kd_nearest_neighbor`
returns a valid index whose element minimises the distance to the probe
over the whole array (distances compared as exact squared Euclidean
distances, to which `l2dist` is order-isomorphic). -/
theorem kd_nearest_neighbor_min (d : Nat) (hd : 0 < d) :
    ∀ len (xs : List Point), xs.length ≤ len → ∀ i v, i < d →
      kd_is_sorted d i xs = true → xs ≠ [] →
      kd_nearest_neighbor d i v xs < xs.length
      ∧ ∀ x ∈ xs,
          sumOfSquares d (xs.getD (kd_nearest_neighbor d i v xs) []) v
            ≤ sumOfSquares d x v := by
  intro len
  induction len with
  | zero =>
    intro xs hx i v hi hs hne
    exact absurd (List.length_eq_zero.mp (by omega)) hne
  | succ L ih =>
    intro xs hx i v hi hs hne
    by_cases hc : xs.length ≤ 1
    · rw [kd_nearest_neighbor_small d i v xs hc]
      have h1 : xs.length = 1 := by
        have := List.length_pos.mpr hne
        omega
      refine ⟨by omega, ?_⟩
      intro x hxm
      cases xs with
      | nil => simp at hxm
      | cons p ps =>
        have hps : ps = [] := by
          simp at h1
          exact h1
        subst hps
        rcases List.mem_singleton.mp hxm with rfl
        exact le_refl _
    · have hlen : 2 ≤ xs.length := by omega
      have hfp := find_pivot_le_middle i xs
      have hmid := middleOf_lt xs hlen
      obtain ⟨hjm, hjlen, hN2, hN3, hrecL, hrecR⟩ :=
        kd_is_sorted_nodeW d i xs (find_pivot i xs)
          (xs.getD (find_pivot i xs) []) hlen rfl rfl hs
      have hJ : (i+1) % d < d := Nat.mod_lt _ hd
      have htl : (xs.take (find_pivot i xs)).length = find_pivot i xs := by
        simp only [List.length_take]; omega
      have hdl : (xs.drop (find_pivot i xs + 1)).length
          = xs.length - (find_pivot i xs + 1) := by
        simp only [List.length_drop]
      have hxs : xs = xs.take (find_pivot i xs)
          ++ xs.getD (find_pivot i xs) []
            :: xs.drop (find_pivot i xs + 1) := by
        conv_lhs => rw [← List.take_append_drop (find_pivot i xs) xs]
        rw [drop_eq_getD_cons xs (find_pivot i xs) [] hjlen]
      have hcover : ∀ x ∈ xs, x ∈ xs.take (find_pivot i xs)
          ∨ x ∈ xs.drop (find_pivot i xs + 1)
          ∨ sumOfSquares d x v
              = sumOfSquares d (xs.getD (find_pivot i xs) []) v := by
        intro x hxm
        rw [hxs] at hxm
        rcases List.mem_append.mp hxm with hm | hm
        · exact Or.inl hm
        · rcases List.mem_cons.mp hm with rfl | hm
          · exact Or.inr (Or.inr rfl)
          · exact Or.inr (Or.inl hm)
      -- facts about the two recursive results
      have hLres : (xs.take (find_pivot i xs) = [] →
            kd_nearest_neighbor d ((i+1) % d) v
              (xs.take (find_pivot i xs)) = 0 ∧ find_pivot i xs = 0)
          ∧ (xs.take (find_pivot i xs) ≠ [] →
            kd_nearest_neighbor d ((i+1) % d) v
              (xs.take (find_pivot i xs)) < find_pivot i xs
            ∧ ∀ x ∈ xs.take (find_pivot i xs),
                sumOfSquares d (xs.getD (kd_nearest_neighbor d ((i+1) % d)
                  v (xs.take (find_pivot i xs))) []) v
                  ≤ sumOfSquares d x v) := by
        constructor
        · intro hT
          have hj0 : find_pivot i xs = 0 := by
            have := congrArg List.length hT
            rw [htl] at this
            simpa using this
          exact ⟨kd_nearest_neighbor_small d ((i+1) % d) v _
            (by rw [hT]; simp), hj0⟩
        · intro hT
          obtain ⟨hq1, hq2⟩ := ih (xs.take (find_pivot i xs))
            (by simp only [List.length_take]; omega) ((i+1) % d) v hJ
            hrecL hT
          rw [htl] at hq1
          refine ⟨hq1, ?_⟩
          intro x hxm
          have := hq2 x hxm
          rwa [take_getD xs (find_pivot i xs) _ [] hq1] at this
      have hRres : (xs.drop (find_pivot i xs + 1) = [] →
            kd_nearest_neighbor d ((i+1) % d) v
              (xs.drop (find_pivot i xs + 1)) = 0
            ∧ xs.length = find_pivot i xs + 1)
          ∧ (xs.drop (find_pivot i xs + 1) ≠ [] →
            kd_nearest_neighbor d ((i+1) % d) v
              (xs.drop (find_pivot i xs + 1))
              < xs.length - (find_pivot i xs + 1)
            ∧ ∀ x ∈ xs.drop (find_pivot i xs + 1),
                sumOfSquares d (xs.getD (find_pivot i xs + 1
                  + kd_nearest_neighbor d ((i+1) % d) v
                      (xs.drop (find_pivot i xs + 1))) []) v
                  ≤ sumOfSquares d x v) := by
        constructor
        · intro hT
          have hj0 : xs.length = find_pivot i xs + 1 := by
            have := congrArg List.length hT
            rw [hdl] at this
            simp at this
            omega
          exact ⟨kd_nearest_neighbor_small d ((i+1) % d) v _
            (by rw [hT]; simp), hj0⟩
        · intro hT
          obtain ⟨hq1, hq2⟩ := ih (xs.drop (find_pivot i xs + 1))
            (by simp only [List.length_drop]; omega) ((i+1) % d) v hJ
            hrecR hT
          rw [hdl] at hq1
          refine ⟨hq1, ?_⟩
          intro x hxm
          have := hq2 x hxm
          rwa [drop_getD xs (find_pivot i xs + 1) _ []] at this
      have hmemdrop : ∀ x ∈ xs.drop (find_pivot i xs + 1),
          x ∈ xs.drop (find_pivot i xs) := by
        intro y hmem
        have heq : (xs.drop (find_pivot i xs)).drop 1
            = xs.drop (find_pivot i xs + 1) := by
          rw [List.drop_drop]
        exact List.mem_of_mem_drop (heq.symm ▸ hmem)
      rw [kd_nearest_neighbor_node d i v xs hlen]
      by_cases hsl : lessNth i v (xs.getD (find_pivot i xs) []) = true
      · rw [if_pos hsl]
        refine nnStep_min_abstract d i v xs _ _
          (xs.take (find_pivot i xs)) (xs.drop (find_pivot i xs + 1))
          hjlen ?_ ?_ ?_ ?_ ?_ ?_ ?_ hcover
        · by_cases hT : xs.take (find_pivot i xs) = []
          · rw [(hLres.1 hT).1]; omega
          · have := (hLres.2 hT).1; omega
        · by_cases hT : xs.drop (find_pivot i xs + 1) = []
          · rw [(hRres.1 hT).1]
            have := (hRres.1 hT).2
            omega
          · have := (hRres.2 hT).1; omega
        · intro hT
          obtain ⟨h1, h2⟩ := hLres.1 hT
          rw [h1, h2]
          exact Or.inr rfl
        · intro hT
          obtain ⟨h1, h2⟩ := hLres.2 hT
          exact ⟨by omega, h2⟩
        · intro hT
          obtain ⟨h1, h2⟩ := hRres.1 hT
          rw [h1]
          exact Or.inl (by omega)
        · intro hT
          obtain ⟨h1, h2⟩ := hRres.2 hT
          exact ⟨by omega, h2⟩
        · -- far side axis bound (far = right, probe on the left)
          intro x hmem
          have hax := axis_ge_of_not_kdLess d i _ _
            (hN3 x (hmemdrop x hmem))
          simp only [lessNth, decide_eq_true_eq] at hsl
          have h1 : (axisVal v i - axisVal (xs.getD (find_pivot i xs) []) i) ^ 2
              ≤ (axisVal v i - axisVal x i) ^ 2 := by
            nlinarith [hax, hsl]
          exact le_trans h1 (sq_axis_le_sumOfSquares d i hd hi x v)
      · rw [if_neg hsl]
        refine nnStep_min_abstract d i v xs _ _
          (xs.drop (find_pivot i xs + 1)) (xs.take (find_pivot i xs))
          hjlen ?_ ?_ ?_ ?_ ?_ ?_ ?_ ?_
        · by_cases hT : xs.drop (find_pivot i xs + 1) = []
          · rw [(hRres.1 hT).1]
            have := (hRres.1 hT).2
            omega
          · have := (hRres.2 hT).1; omega
        · by_cases hT : xs.take (find_pivot i xs) = []
          · rw [(hLres.1 hT).1]; omega
          · have := (hLres.2 hT).1; omega
        · intro hT
          obtain ⟨h1, h2⟩ := hRres.1 hT
          rw [h1]
          exact Or.inl (by omega)
        · intro hT
          obtain ⟨h1, h2⟩ := hRres.2 hT
          exact ⟨by omega, h2⟩
        · intro hT
          obtain ⟨h1, h2⟩ := hLres.1 hT
          rw [h1, h2]
          exact Or.inr rfl
        · intro hT
          obtain ⟨h1, h2⟩ := hLres.2 hT
          exact ⟨by omega, h2⟩
        · -- far side axis bound (far = left, probe on the right)
          intro x hmem
          have hax := hN2 x hmem
          simp only [lessNth, decide_eq_true_eq, not_lt] at hax hsl
          have h1 : (axisVal v i - axisVal (xs.getD (find_pivot i xs) []) i) ^ 2
              ≤ (axisVal v i - axisVal x i) ^ 2 := by
            nlinarith [hax, hsl]
          exact le_trans h1 (sq_axis_le_sumOfSquares d i hd hi x v)
        · intro x hxm
          rcases hcover x hxm with hm | hm | hm
          · exact Or.inr (Or.inl hm)
          · exact Or.inl hm
          · exact Or.inr (Or.inr hm)

/-- Witness for C2 at a concrete verified array. -/
theorem kd_nearest_neighbor_min_witness :
    kd_nearest_neighbor 2 0 [2,2] [[0,0],[1,5],[5,1],[10,10]]
        < ([[0,0],[1,5],[5,1],[10,10]] : List Point).length
    ∧ ∀ x ∈ ([[0,0],[1,5],[5,1],[10,10]] : List Point),
        sumOfSquares 2 ([[0,0],[1,5],[5,1],[10,10]].getD
          (kd_nearest_neighbor 2 0 [2,2] [[0,0],[1,5],[5,1],[10,10]]) [])
          [2,2]
          ≤ sumOfSquares 2 x [2,2] :=
  kd_nearest_neighbor_min 2 (by decide) 4 [[0,0],[1,5],[5,1],[10,10]]
    (by decide) 0 [2,2] (by decide) (by decide) (by decide)

/-! k nearest neighbors (`detail::knn`, `kd_nearest_neighbors`):
unfolding and fuel-irrelevance. -/

theorem knnStep_congr (i : Nat) (v : Point) (xs : List Point) (B : NBest)
    (F G : NBest → NBest) (h : F B = G B) :
    knnStep i v xs B F = knnStep i v xs B G := by
  rw [knnStep, knnStep]
  split
  · exact h
  · rfl

theorem knnF_irrel (d : Nat) :
    ∀ len (xs : List Point), xs.length ≤ len → ∀ i v (b : NBest) n m,
      xs.length < n → xs.length < m →
      knnF d n i v xs b = knnF d m i v xs b := by
  intro len
  induction len with
  | zero =>
    intro xs hx i v b n m hn hm
    match n, m with
    | n'+1, m'+1 =>
      have h1 : ¬ xs.length = 1 := by omega
      have h0 : xs.length = 0 := by omega
      rw [knnF, knnF, if_neg h1, if_neg h1, if_pos h0, if_pos h0]
  | succ L ih =>
    intro xs hx i v b n m hn hm
    match n, m with
    | n'+1, m'+1 =>
      by_cases h1 : xs.length = 1
      · rw [knnF, knnF, if_pos h1, if_pos h1]
      · by_cases h0 : xs.length = 0
        · rw [knnF, knnF, if_neg h1, if_neg h1, if_pos h0, if_pos h0]
        · have hlen : 2 ≤ xs.length := by omega
          have hfp := find_pivot_le_middle i xs
          have hmid := middleOf_lt xs hlen
          have hL : ∀ b2, knnF d n' ((i+1) % d) v
                (xs.take (find_pivot i xs)) b2
              = knnF d m' ((i+1) % d) v (xs.take (find_pivot i xs)) b2 :=
            fun b2 => ih (xs.take (find_pivot i xs))
              (by simp only [List.length_take]; omega) ((i+1) % d) v b2
              n' m' (by simp only [List.length_take]; omega)
              (by simp only [List.length_take]; omega)
          have hR : ∀ b2, knnF d n' ((i+1) % d) v
                (xs.drop (find_pivot i xs + 1)) b2
              = knnF d m' ((i+1) % d) v (xs.drop (find_pivot i xs + 1)) b2 :=
            fun b2 => ih (xs.drop (find_pivot i xs + 1))
              (by simp only [List.length_drop]; omega) ((i+1) % d) v b2
              n' m' (by simp only [List.length_drop]; omega)
              (by simp only [List.length_drop]; omega)
          rw [knnF, knnF, if_neg h1, if_neg h1, if_neg h0, if_neg h0]
          simp only [hL, hR]

theorem knn_nil (d i : Nat) (v : Point) (xs : List Point) (b : NBest)
    (h : xs.length = 0) : knn d i v xs b = b := by
  rw [knn, knnF, if_neg (by omega), if_pos h]

theorem knn_one (d i : Nat) (v : Point) (xs : List Point) (b : NBest)
    (h : xs.length = 1) :
    knn d i v xs b
      = b.add (sumOfSquares d (xs.getD 0 []) v) (xs.getD 0 []) := by
  rw [knn, knnF, if_pos h]

theorem knn_node (d i : Nat) (v : Point) (xs : List Point) (b : NBest)
    (hlen : 2 ≤ xs.length) :
    knn d i v xs b
      = if lessNth i v (xs.getD (find_pivot i xs) []) then
          knnStep i v xs
            (knn d ((i+1) % d) v (xs.take (find_pivot i xs))
              (b.add (sumOfSquares d (xs.getD (find_pivot i xs) []) v)
                (xs.getD (find_pivot i xs) [])))
            (fun b2 => knn d ((i+1) % d) v
              (xs.drop (find_pivot i xs + 1)) b2)
        else
          knnStep i v xs
            (knn d ((i+1) % d) v (xs.drop (find_pivot i xs + 1))
              (b.add (sumOfSquares d (xs.getD (find_pivot i xs) []) v)
                (xs.getD (find_pivot i xs) [])))
            (fun b2 => knn d ((i+1) % d) v
              (xs.take (find_pivot i xs)) b2) := by
  have hfp := find_pivot_le_middle i xs
  have hmid := middleOf_lt xs hlen
  have hL : ∀ b2, knnF d xs.length ((i+1) % d) v
        (xs.take (find_pivot i xs)) b2
      = knn d ((i+1) % d) v (xs.take (find_pivot i xs)) b2 := by
    intro b2
    rw [knn]
    exact knnF_irrel d xs.length (xs.take (find_pivot i xs))
      (by simp only [List.length_take]; omega) ((i+1) % d) v b2
      xs.length ((xs.take (find_pivot i xs)).length + 1)
      (by simp only [List.length_take]; omega) (by omega)
  have hR : ∀ b2, knnF d xs.length ((i+1) % d) v
        (xs.drop (find_pivot i xs + 1)) b2
      = knn d ((i+1) % d) v (xs.drop (find_pivot i xs + 1)) b2 := by
    intro b2
    rw [knn]
    exact knnF_irrel d xs.length (xs.drop (find_pivot i xs + 1))
      (by simp only [List.length_drop]; omega) ((i+1) % d) v b2
      xs.length ((xs.drop (find_pivot i xs + 1)).length + 1)
      (by simp only [List.length_drop]; omega) (by omega)
  rw [knn, knnF, if_neg (by omega : ¬ xs.length = 1),
    if_neg (by omega : ¬ xs.length = 0)]
  simp only [hL, hR]

/-! Order facts for `intLe` and the canonical ascending sort of key
lists; erase-the-maximum and `take k` selection lemmas used for the
bounded heap. -/

theorem intLe_total (a b : Int) : intLe a b = true ∨ intLe b a = true := by
  rw [intLe, intLe]
  by_cases h : a ≤ b
  · exact Or.inl (decide_eq_true h)
  · exact Or.inr (decide_eq_true (by omega))

theorem intLe_trans (a b c : Int) (h1 : intLe a b = true)
    (h2 : intLe b c = true) : intLe a c = true := by
  rw [intLe] at h1 h2 ⊢
  have g1 := of_decide_eq_true h1
  have g2 := of_decide_eq_true h2
  exact decide_eq_true (by omega)

theorem sortInt_sorted (l : List Int) :
    (sortLe intLe l).Pairwise (fun a b : Int => a ≤ b) :=
  (sortLe_pairwise intLe intLe_total intLe_trans l).imp
    (fun h => of_decide_eq_true h)

theorem sortInt_canon (l l' : List Int) (h : l.Perm l') :
    sortLe intLe l = sortLe intLe l' :=
  List.eq_of_perm_of_sorted
    (((sortLe_perm intLe l).trans h).trans (sortLe_perm intLe l').symm)
    (sortInt_sorted l) (sortInt_sorted l')

theorem sortInt_snoc (x : Int) (l : List Int) :
    sortLe intLe (l ++ [x]) = insertLe intLe x (sortLe intLe l) := by
  have h : sortLe intLe (l ++ [x]) = sortLe intLe (x :: l) :=
    sortInt_canon _ _ (List.perm_append_singleton x l)
  rw [h]
  rfl

theorem sortLe_of_pairwise {α : Type} (le : α → α → Bool) (l : List α)
    (hl : l.Pairwise (fun a b => le a b = true)) : sortLe le l = l := by
  induction l with
  | nil => rfl
  | cons a t ih =>
    rw [List.pairwise_cons] at hl
    rw [sortLe, ih hl.2]
    cases t with
    | nil => rfl
    | cons b t' => rw [insertLe, if_pos (hl.1 b (List.mem_cons_self b t'))]

theorem insertLe_ne_nil {α : Type} (le : α → α → Bool) (x : α)
    (l : List α) : insertLe le x l ≠ [] := by
  cases l with
  | nil => simp [insertLe]
  | cons y ys =>
    rw [insertLe]
    split <;> simp

theorem dropLast_take_succ {α : Type} (m : Nat) (l : List α)
    (h : m + 1 ≤ l.length) : (l.take (m+1)).dropLast = l.take m := by
  rw [List.dropLast_eq_take, List.length_take]
  have hmin : min (m+1) l.length = m+1 := by omega
  rw [hmin, List.take_take]
  congr 1
  omega

theorem dropLast_insertLe_take {α : Type} (le : α → α → Bool) (x : α) :
    ∀ (s : List α) (k : Nat), k ≤ s.length →
      (insertLe le x (s.take k)).dropLast = (insertLe le x s).take k := by
  intro s
  induction s with
  | nil =>
    intro k hk
    have hk0 : k = 0 := by simpa using hk
    subst hk0
    simp [insertLe]
  | cons y s' ih =>
    intro k hk
    cases k with
    | zero => simp [insertLe]
    | succ k' =>
      rw [List.take_succ_cons, insertLe, insertLe]
      by_cases hxy : le x y = true
      · have hts : y :: s'.take k' = (y :: s').take (k'+1) := rfl
        rw [if_pos hxy, if_pos hxy, List.dropLast_cons₂,
          List.take_succ_cons, hts,
          dropLast_take_succ k' (y :: s') (by simpa using hk)]
      · have hk2 : k' ≤ s'.length := by
          simp only [List.length_cons] at hk
          omega
        rw [if_neg hxy, if_neg hxy,
          List.dropLast_cons_of_ne_nil (insertLe_ne_nil le x _),
          List.take_succ_cons, ih k' hk2]

theorem take_insertLe_of_not {α : Type} (le : α → α → Bool) (x : α) :
    ∀ (k : Nat) (s : List α), k ≤ s.length →
      (∀ a ∈ s.take k, le x a = false) →
      (insertLe le x s).take k = s.take k := by
  intro k
  induction k with
  | zero => intro s hk h; simp
  | succ k' ih =>
    intro s hk h
    cases s with
    | nil => simp at hk
    | cons y s' =>
      have hy : le x y = false := by
        apply h
        rw [List.take_succ_cons]
        exact List.mem_cons_self y _
      have htail : ∀ a ∈ s'.take k', le x a = false := by
        intro a ha
        apply h
        rw [List.take_succ_cons]
        exact List.mem_cons_of_mem y ha
      have hk2 : k' ≤ s'.length := by
        simp only [List.length_cons] at hk
        omega
      rw [insertLe, if_neg (by rw [hy]; exact Bool.false_ne_true),
        List.take_succ_cons, List.take_succ_cons, ih s' hk2 htail]

theorem eraseP_eq_erase_int (c : Int) : ∀ (l : List Int),
    l.eraseP (fun a => decide (a = c)) = l.erase c := by
  intro l
  induction l with
  | nil => rfl
  | cons b t ih =>
    rw [List.eraseP_cons, List.erase_cons]
    by_cases hbc : b = c
    · subst hbc
      simp
    · have h1 : decide (b = c) = false := decide_eq_false hbc
      have h2 : (b == c) = false := by
        simp [hbc]
      rw [h1, h2]
      simp [ih]

theorem map_eraseP {α β : Type} (f : α → β) (p : β → Bool) :
    ∀ (l : List α),
      (l.eraseP (fun a => p (f a))).map f = (l.map f).eraseP p := by
  intro l
  induction l with
  | nil => rfl
  | cons a t ih =>
    rw [List.map_cons, List.eraseP_cons, List.eraseP_cons]
    cases hp : p (f a) with
    | true => simp
    | false => simp [ih]

theorem erase_max_perm (W : List Int) (c : Int) (hc : c ∈ W)
    (hub : ∀ a ∈ W, a ≤ c) :
    (W.erase c).Perm ((sortLe intLe W).dropLast) := by
  have hW : W ≠ [] := List.ne_nil_of_mem hc
  have hS : (sortLe intLe W).Perm W := sortLe_perm intLe W
  have hSne : sortLe intLe W ≠ [] := by
    intro h
    rw [h] at hS
    exact hW (List.Perm.eq_nil hS.symm)
  obtain hconc := List.dropLast_concat_getLast hSne
  have hg : (sortLe intLe W).getLast hSne = c := by
    have hgm : (sortLe intLe W).getLast hSne ∈ W :=
      hS.mem_iff.mp (List.getLast_mem hSne)
    have h1 : (sortLe intLe W).getLast hSne ≤ c := hub _ hgm
    have hcm : c ∈ sortLe intLe W := hS.mem_iff.mpr hc
    rw [← hconc] at hcm
    rcases List.mem_append.mp hcm with hm | hm
    · have hp := sortInt_sorted W
      rw [← hconc] at hp
      have h2 := List.pairwise_append.mp hp
      have h3 := h2.2.2 c hm ((sortLe intLe W).getLast hSne)
        (List.mem_singleton_self _)
      omega
    · exact (List.mem_singleton.mp hm).symm
  have hperm : W.Perm (c :: (sortLe intLe W).dropLast) := by
    have h1 : W.Perm ((sortLe intLe W).dropLast
        ++ [(sortLe intLe W).getLast hSne]) := by
      rw [hconc]
      exact hS.symm
    rw [hg] at h1
    exact h1.trans (List.perm_append_singleton c _)
  have h2 := hperm.erase c
  rwa [List.erase_cons_head] at h2

theorem take_sort_snoc_gt (k : Nat) (M : List Int) (c : Int)
    (hk : k ≤ M.length)
    (hc : ∀ a ∈ (sortLe intLe M).take k, a < c) :
    (sortLe intLe (M ++ [c])).take k = (sortLe intLe M).take k := by
  rw [sortInt_snoc]
  apply take_insertLe_of_not intLe c k (sortLe intLe M)
    (by rw [sortLe_length]; exact hk)
  intro a ha
  have := hc a ha
  rw [intLe]
  exact decide_eq_false (by omega)

/-! The `n_best` queue invariant: after processing the elements of `P`
(starting from an empty queue of capacity `k`), every stored entry pairs
an element of `P` with its exact squared distance, and the stored keys
are precisely the `k` smallest distances seen (as a multiset). -/

def knnInv (d : Nat) (v : Point) (k : Nat) (P : List Point)
    (b : NBest) : Prop :=
  b.n = k
  ∧ (∀ e ∈ b.q, e.1 = sumOfSquares d e.2 v)
  ∧ (b.q.map Prod.snd).Subperm P
  ∧ (b.q.map Prod.fst).Perm
      ((sortLe intLe (P.map (fun x => sumOfSquares d x v))).take k)

theorem knnInv_length (d : Nat) (v : Point) (k : Nat) (P : List Point)
    (b : NBest) (h : knnInv d v k P b) :
    b.q.length = min k P.length := by
  have h4 := h.2.2.2.length_eq
  rw [List.length_map, List.length_take, sortLe_length,
    List.length_map] at h4
  exact h4

theorem knnInv_perm (d : Nat) (v : Point) (k : Nat) (P P' : List Point)
    (b : NBest) (hQ : P.Perm P') (h : knnInv d v k P b) :
    knnInv d v k P' b := by
  obtain ⟨h1, h2, h3, h4⟩ := h
  refine ⟨h1, h2, h3.trans hQ.subperm, ?_⟩
  have he : sortLe intLe (P.map (fun x => sumOfSquares d x v))
      = sortLe intLe (P'.map (fun x => sumOfSquares d x v)) :=
    sortInt_canon _ _ (hQ.map _)
  rw [← he]
  exact h4

theorem NBest.add_n (b : NBest) (c : Int) (x : Point) :
    (b.add c x).n = b.n := by
  rw [NBest.add]
  split <;> rfl

theorem knnInv_add (d : Nat) (v : Point) (k : Nat) (P : List Point)
    (b : NBest) (x : Point) (h : knnInv d v k P b) :
    knnInv d v k (P ++ [x]) (b.add (sumOfSquares d x v) x) := by
  obtain ⟨h1, h2, h3, h4⟩ := h
  have hql := knnInv_length d v k P b ⟨h1, h2, h3, h4⟩
  have hsnd : ((sumOfSquares d x v, x) :: b.q).map Prod.snd
      = x :: b.q.map Prod.snd := rfl
  have hsub : (x :: b.q.map Prod.snd).Subperm (P ++ [x]) :=
    ((List.subperm_cons x).mpr h3).trans
      (List.perm_append_singleton x P).symm.subperm
  have hMq : ((P ++ [x]).map (fun y => sumOfSquares d y v))
      = P.map (fun y => sumOfSquares d y v) ++ [sumOfSquares d x v] := by
    rw [List.map_append]
    rfl
  rw [NBest.add, h1]
  by_cases hfull : k < ((sumOfSquares d x v, x) :: b.q).length
  · -- queue already holds k entries: push then pop one maximum
    rw [if_pos hfull]
    simp only [List.length_cons] at hfull
    have hqk : b.q.length = k := by omega
    have hPk : k ≤ P.length := by
      by_contra hPk
      rw [Nat.min_def] at hql
      split at hql <;> omega
    have hne : ((sumOfSquares d x v, x) :: b.q) ≠ [] := by simp
    obtain ⟨e0, he0m, he0k⟩ := qmax_mem _ hne
    have hc0mem : qmax ((sumOfSquares d x v, x) :: b.q)
        ∈ sumOfSquares d x v :: b.q.map Prod.fst := by
      rw [← he0k]
      rcases List.mem_cons.mp he0m with rfl | hm
      · exact List.mem_cons_self _ _
      · exact List.mem_cons_of_mem _ (List.mem_map_of_mem Prod.fst hm)
    have hc0ub : ∀ a ∈ sumOfSquares d x v :: b.q.map Prod.fst,
        a ≤ qmax ((sumOfSquares d x v, x) :: b.q) := by
      intro a ha
      rcases List.mem_cons.mp ha with rfl | hm
      · exact le_qmax _ _ (List.mem_cons_self _ _)
      · obtain ⟨e, hem, hek⟩ := List.mem_map.mp hm
        rw [← hek]
        exact le_qmax _ _ (List.mem_cons_of_mem _ hem)
    refine ⟨rfl, ?_, ?_, ?_⟩
    · intro e he
      have he2 : e ∈ popMax ((sumOfSquares d x v, x) :: b.q) := he
      rw [popMax] at he2
      have hmem : e ∈ (sumOfSquares d x v, x) :: b.q :=
        (List.eraseP_sublist _).subset he2
      rcases List.mem_cons.mp hmem with rfl | hm
      · rfl
      · exact h2 e hm
    · refine List.Subperm.trans ?_ hsub
      exact (((List.eraseP_sublist _).map Prod.snd).subperm).trans
        (by rw [hsnd])
    · have hkeys : (popMax ((sumOfSquares d x v, x) :: b.q)).map Prod.fst
          = (sumOfSquares d x v :: b.q.map Prod.fst).erase
              (qmax ((sumOfSquares d x v, x) :: b.q)) := by
        rw [popMax, map_eraseP Prod.fst
          (fun a => decide (a = qmax ((sumOfSquares d x v, x) :: b.q))),
          eraseP_eq_erase_int]
        rfl
      rw [hkeys]
      have hW : (sumOfSquares d x v :: b.q.map Prod.fst).Perm
          (sumOfSquares d x v
            :: (sortLe intLe (P.map (fun y => sumOfSquares d y v))).take k)
        := List.Perm.cons _ h4
      have hSW : sortLe intLe (sumOfSquares d x v :: b.q.map Prod.fst)
          = insertLe intLe (sumOfSquares d x v)
              ((sortLe intLe (P.map (fun y => sumOfSquares d y v))).take k)
        := by
        rw [sortInt_canon _ _ hW]
        show insertLe intLe (sumOfSquares d x v)
            (sortLe intLe ((sortLe intLe
              (P.map (fun y => sumOfSquares d y v))).take k))
          = _
        rw [sortLe_of_pairwise intLe _
          (((sortLe_pairwise intLe intLe_total intLe_trans _)).sublist
            (List.take_sublist _ _))]
      have hdrop : (sortLe intLe
            (sumOfSquares d x v :: b.q.map Prod.fst)).dropLast
          = (sortLe intLe
              ((P ++ [x]).map (fun y => sumOfSquares d y v))).take k := by
        rw [hSW, dropLast_insertLe_take intLe _ _ k
            (by rw [sortLe_length, List.length_map]; exact hPk),
          ← sortInt_snoc, hMq]
      rw [← hdrop]
      exact erase_max_perm _ _ hc0mem hc0ub
  · -- queue is underfull: just push
    rw [if_neg hfull]
    simp only [List.length_cons] at hfull
    have hqlt : b.q.length < k := by omega
    have hPlt : P.length < k := by
      by_contra hPge
      rw [Nat.min_def] at hql
      split at hql <;> omega
    refine ⟨rfl, ?_, ?_, ?_⟩
    · intro e he
      rcases List.mem_cons.mp he with rfl | hm
      · rfl
      · exact h2 e hm
    · rw [hsnd]
      exact hsub
    · have hlen2 : ((P ++ [x]).map
          (fun y => sumOfSquares d y v)).length ≤ k := by
        rw [List.length_map, List.length_append]
        simp only [List.length_singleton]
        omega
      have htk : (sortLe intLe
            ((P ++ [x]).map (fun y => sumOfSquares d y v))).take k
          = sortLe intLe ((P ++ [x]).map (fun y => sumOfSquares d y v)) :=
        List.take_of_length_le (by rw [sortLe_length]; exact hlen2)
      have htk0 : (sortLe intLe
            (P.map (fun y => sumOfSquares d y v))).take k
          = sortLe intLe (P.map (fun y => sumOfSquares d y v)) :=
        List.take_of_length_le
          (by rw [sortLe_length, List.length_map]; omega)
      rw [htk]
      show (sumOfSquares d x v :: b.q.map Prod.fst).Perm _
      have hA : (sumOfSquares d x v :: b.q.map Prod.fst).Perm
          (sumOfSquares d x v :: P.map (fun y => sumOfSquares d y v)) := by
        refine List.Perm.cons _ ?_
        rw [htk0] at h4
        exact h4.trans (sortLe_perm intLe _)
      have hB : (sumOfSquares d x v
            :: P.map (fun y => sumOfSquares d y v)).Perm
          ((P ++ [x]).map (fun y => sumOfSquares d y v)) := by
        rw [hMq]
        exact (List.perm_append_singleton _ _).symm
      exact (hA.trans hB).trans (sortLe_perm intLe _).symm

theorem knnInv_absorb (d : Nat) (v : Point) (k : Nat) (P : List Point)
    (b : NBest) (y : Point) (h : knnInv d v k P b) (hk : k ≤ P.length)
    (hgt : ∀ a ∈ (sortLe intLe
        (P.map (fun z => sumOfSquares d z v))).take k,
      a < sumOfSquares d y v) :
    knnInv d v k (P ++ [y]) b
    ∧ (sortLe intLe ((P ++ [y]).map (fun z => sumOfSquares d z v))).take k
      = (sortLe intLe (P.map (fun z => sumOfSquares d z v))).take k := by
  obtain ⟨h1, h2, h3, h4⟩ := h
  have hMq : ((P ++ [y]).map (fun z => sumOfSquares d z v))
      = P.map (fun z => sumOfSquares d z v) ++ [sumOfSquares d y v] := by
    rw [List.map_append]
    rfl
  have htake : (sortLe intLe
        ((P ++ [y]).map (fun z => sumOfSquares d z v))).take k
      = (sortLe intLe (P.map (fun z => sumOfSquares d z v))).take k := by
    rw [hMq]
    exact take_sort_snoc_gt k _ _ (by rw [List.length_map]; exact hk) hgt
  refine ⟨⟨h1, h2, ?_, ?_⟩, htake⟩
  · exact h3.trans (List.sublist_append_left P [y]).subperm
  · rw [htake]
    exact h4

theorem knnInv_absorb_list (d : Nat) (v : Point) (k : Nat) :
    ∀ (F P : List Point) (b : NBest), knnInv d v k P b → k ≤ P.length →
      (∀ y ∈ F, ∀ a ∈ (sortLe intLe
          (P.map (fun z => sumOfSquares d z v))).take k,
        a < sumOfSquares d y v) →
      knnInv d v k (P ++ F) b := by
  intro F
  induction F with
  | nil =>
    intro P b h hk hgt
    rw [List.append_nil]
    exact h
  | cons y F' ih =>
    intro P b h hk hgt
    obtain ⟨h1, htake⟩ := knnInv_absorb d v k P b y h hk
      (hgt y (List.mem_cons_self y F'))
    have h2 := ih (P ++ [y]) b h1
      (by rw [List.length_append]; omega)
      (by
        intro z hz a ha
        rw [htake] at ha
        exact hgt z (List.mem_cons_of_mem y hz) a ha)
    rwa [List.append_assoc, List.singleton_append] at h2

theorem maxKey_nil (b : NBest) (h : b.q = []) : b.maxKey = ⊤ := by
  rw [NBest.maxKey, h]

theorem maxKey_of_ne (b : NBest) (h : b.q ≠ []) :
    b.maxKey = ((qmax b.q : Int) : WithTop Int) := by
  rw [NBest.maxKey]
  cases hq : b.q with
  | nil => exact absurd hq h
  | cons e es =>
    rfl

/-- One complete `knn` traversal preserves the queue invariant, with the
whole subtree counted as processed (pruned far subtrees contribute no
change, because every element there is strictly farther than all stored
keys of a full queue). -/
theorem knn_spec (d : Nat) (hd : 0 < d) (v : Point) (k : Nat) :
    ∀ len (xs : List Point), xs.length ≤ len → ∀ i (b : NBest)
      (P : List Point), i < d → kd_is_sorted d i xs = true →
      knnInv d v k P b → knnInv d v k (P ++ xs) (knn d i v xs b) := by
  intro len
  induction len with
  | zero =>
    intro xs hx i b P hi hs hInv
    have h0 : xs = [] := List.length_eq_zero.mp (by omega)
    subst h0
    rw [knn_nil d i v [] b rfl, List.append_nil]
    exact hInv
  | succ L ih =>
    intro xs hx i b P hi hs hInv
    by_cases h0 : xs.length = 0
    · have h0' : xs = [] := List.length_eq_zero.mp h0
      subst h0'
      rw [knn_nil d i v [] b rfl, List.append_nil]
      exact hInv
    · by_cases h1 : xs.length = 1
      · obtain ⟨a, rfl⟩ := List.length_eq_one.mp h1
        rw [knn_one d i v [a] b rfl]
        have hget : ([a] : List Point).getD 0 [] = a := rfl
        rw [hget]
        exact knnInv_add d v k P b a hInv
      · have hlen : 2 ≤ xs.length := by omega
        have hfp := find_pivot_le_middle i xs
        have hmid := middleOf_lt xs hlen
        obtain ⟨hjm, hjlen, hN2, hN3, hrecL, hrecR⟩ :=
          kd_is_sorted_nodeW d i xs (find_pivot i xs)
            (xs.getD (find_pivot i xs) []) hlen rfl rfl hs
        have hJ : (i+1) % d < d := Nat.mod_lt _ hd
        have hxs : xs = xs.take (find_pivot i xs)
            ++ xs.getD (find_pivot i xs) []
              :: xs.drop (find_pivot i xs + 1) := by
          conv_lhs => rw [← List.take_append_drop (find_pivot i xs) xs]
          rw [drop_eq_getD_cons xs (find_pivot i xs) [] hjlen]
        have hmemdrop : ∀ y ∈ xs.drop (find_pivot i xs + 1),
            y ∈ xs.drop (find_pivot i xs) := by
          intro y hmem
          have heq : (xs.drop (find_pivot i xs)).drop 1
              = xs.drop (find_pivot i xs + 1) := by
            rw [List.drop_drop]
          exact List.mem_of_mem_drop (heq.symm ▸ hmem)
        have hb0 : knnInv d v k (P ++ [xs.getD (find_pivot i xs) []])
            (b.add (sumOfSquares d (xs.getD (find_pivot i xs) []) v)
              (xs.getD (find_pivot i xs) [])) :=
          knnInv_add d v k P b _ hInv
        rw [knn_node d i v xs b hlen]
        by_cases hsl : lessNth i v (xs.getD (find_pivot i xs) []) = true
        · rw [if_pos hsl]
          -- near side is the left subrange
          have hB2 : knnInv d v k
              ((P ++ [xs.getD (find_pivot i xs) []])
                ++ xs.take (find_pivot i xs))
              (knn d ((i+1) % d) v (xs.take (find_pivot i xs))
                (b.add (sumOfSquares d (xs.getD (find_pivot i xs) []) v)
                  (xs.getD (find_pivot i xs) []))) :=
            ih (xs.take (find_pivot i xs))
              (by simp only [List.length_take]; omega) ((i+1) % d) _ _
              hJ hrecL hb0
          have hperm : (((P ++ [xs.getD (find_pivot i xs) []])
                ++ xs.take (find_pivot i xs))
                ++ xs.drop (find_pivot i xs + 1)).Perm (P ++ xs) := by
            have h2 : ((P ++ [xs.getD (find_pivot i xs) []])
                  ++ xs.take (find_pivot i xs))
                  ++ xs.drop (find_pivot i xs + 1)
                = P ++ (xs.getD (find_pivot i xs) []
                    :: (xs.take (find_pivot i xs)
                      ++ xs.drop (find_pivot i xs + 1))) := by
              simp [List.append_assoc]
            rw [h2]
            refine List.Perm.append_left P ?_
            conv_rhs => rw [hxs]
            exact List.perm_middle.symm
          rw [knnStep]
          by_cases hpr : (((axisVal v i
                - axisVal (xs.getD (find_pivot i xs) []) i) ^ 2 : Int)
              : WithTop Int)
              ≤ (knn d ((i+1) % d) v (xs.take (find_pivot i xs))
                  (b.add (sumOfSquares d (xs.getD (find_pivot i xs) []) v)
                    (xs.getD (find_pivot i xs) []))).maxKey
          · rw [if_pos hpr]
            have hRes := ih (xs.drop (find_pivot i xs + 1))
              (by simp only [List.length_drop]; omega) ((i+1) % d) _ _
              hJ hrecR hB2
            exact knnInv_perm d v k _ _ _ hperm hRes
          · rw [if_neg hpr]
            -- pruned: the queue is full and every far element is farther
            -- than all stored keys
            have hqne : (knn d ((i+1) % d) v (xs.take (find_pivot i xs))
                (b.add (sumOfSquares d (xs.getD (find_pivot i xs) []) v)
                  (xs.getD (find_pivot i xs) []))).q ≠ [] := by
              intro hq
              rw [maxKey_nil _ hq] at hpr
              exact hpr le_top
            have hkey := maxKey_of_ne _ hqne
            have hlt : qmax (knn d ((i+1) % d) v
                  (xs.take (find_pivot i xs))
                  (b.add (sumOfSquares d (xs.getD (find_pivot i xs) []) v)
                    (xs.getD (find_pivot i xs) []))).q
                < (axisVal v i
                    - axisVal (xs.getD (find_pivot i xs) []) i) ^ 2 := by
              by_contra hge
              refine hpr ?_
              rw [hkey]
              exact WithTop.coe_le_coe.mpr (by omega)
            have hmemP : xs.getD (find_pivot i xs) []
                ∈ (P ++ [xs.getD (find_pivot i xs) []])
                  ++ xs.take (find_pivot i xs) := by
              refine List.mem_append.mpr (Or.inl ?_)
              exact List.mem_append.mpr (Or.inr (List.mem_singleton_self _))
            have hfull2 : k ≤ ((P ++ [xs.getD (find_pivot i xs) []])
                ++ xs.take (find_pivot i xs)).length := by
              by_contra hlt2
              have hql := knnInv_length d v k _ _ hB2
              have hqlen : (knn d ((i+1) % d) v
                    (xs.take (find_pivot i xs))
                    (b.add
                      (sumOfSquares d (xs.getD (find_pivot i xs) []) v)
                      (xs.getD (find_pivot i xs) []))).q.length
                  = ((P ++ [xs.getD (find_pivot i xs) []])
                      ++ xs.take (find_pivot i xs)).length := by
                rw [hql, Nat.min_def]
                split <;> omega
              have hsndperm := List.Subperm.perm_of_length_le hB2.2.2.1
                (by rw [List.length_map]; omega)
              have hmemq : xs.getD (find_pivot i xs) []
                  ∈ (knn d ((i+1) % d) v (xs.take (find_pivot i xs))
                      (b.add
                        (sumOfSquares d (xs.getD (find_pivot i xs) []) v)
                        (xs.getD (find_pivot i xs) []))).q.map Prod.snd :=
                hsndperm.mem_iff.mpr hmemP
              obtain ⟨e, hem, hesnd⟩ := List.mem_map.mp hmemq
              have hek := hB2.2.1 e hem
              have hele := le_qmax _ e hem
              have hax := sq_axis_le_sumOfSquares d i hd hi
                (xs.getD (find_pivot i xs) []) v
              rw [hesnd] at hek
              omega
            have hgt : ∀ y ∈ xs.drop (find_pivot i xs + 1),
                ∀ a ∈ (sortLe intLe
                    (((P ++ [xs.getD (find_pivot i xs) []])
                      ++ xs.take (find_pivot i xs)).map
                      (fun z => sumOfSquares d z v))).take k,
                  a < sumOfSquares d y v := by
              intro y hy a ha
              have hamem : a ∈ (knn d ((i+1) % d) v
                  (xs.take (find_pivot i xs))
                  (b.add (sumOfSquares d (xs.getD (find_pivot i xs) []) v)
                    (xs.getD (find_pivot i xs) []))).q.map Prod.fst :=
                hB2.2.2.2.mem_iff.mpr ha
              obtain ⟨e, hem, hefst⟩ := List.mem_map.mp hamem
              have haq := le_qmax _ e hem
              rw [hefst] at haq
              have hyax := axis_ge_of_not_kdLess d i _ _ (hN3 y (hmemdrop y hy))
              simp only [lessNth, decide_eq_true_eq] at hsl
              have hgeo : (axisVal v i
                    - axisVal (xs.getD (find_pivot i xs) []) i) ^ 2
                  ≤ (axisVal v i - axisVal y i) ^ 2 := by
                nlinarith [hyax, hsl]
              have hay := sq_axis_le_sumOfSquares d i hd hi y v
              omega
            have hAbs := knnInv_absorb_list d v k
              (xs.drop (find_pivot i xs + 1)) _ _ hB2 hfull2 hgt
            exact knnInv_perm d v k _ _ _ hperm hAbs
        · rw [if_neg hsl]
          -- near side is the right subrange
          have hB2 : knnInv d v k
              ((P ++ [xs.getD (find_pivot i xs) []])
                ++ xs.drop (find_pivot i xs + 1))
              (knn d ((i+1) % d) v (xs.drop (find_pivot i xs + 1))
                (b.add (sumOfSquares d (xs.getD (find_pivot i xs) []) v)
                  (xs.getD (find_pivot i xs) []))) :=
            ih (xs.drop (find_pivot i xs + 1))
              (by simp only [List.length_drop]; omega) ((i+1) % d) _ _
              hJ hrecR hb0
          have hperm : (((P ++ [xs.getD (find_pivot i xs) []])
                ++ xs.drop (find_pivot i xs + 1))
                ++ xs.take (find_pivot i xs)).Perm (P ++ xs) := by
            have h2 : ((P ++ [xs.getD (find_pivot i xs) []])
                  ++ xs.drop (find_pivot i xs + 1))
                  ++ xs.take (find_pivot i xs)
                = P ++ (xs.getD (find_pivot i xs) []
                    :: (xs.drop (find_pivot i xs + 1)
                      ++ xs.take (find_pivot i xs))) := by
              simp [List.append_assoc]
            rw [h2]
            refine List.Perm.append_left P ?_
            conv_rhs => rw [hxs]
            refine List.Perm.trans
              (List.Perm.cons _ List.perm_append_comm) ?_
            exact List.perm_middle.symm
          rw [knnStep]
          by_cases hpr : (((axisVal v i
                - axisVal (xs.getD (find_pivot i xs) []) i) ^ 2 : Int)
              : WithTop Int)
              ≤ (knn d ((i+1) % d) v (xs.drop (find_pivot i xs + 1))
                  (b.add (sumOfSquares d (xs.getD (find_pivot i xs) []) v)
                    (xs.getD (find_pivot i xs) []))).maxKey
          · rw [if_pos hpr]
            have hRes := ih (xs.take (find_pivot i xs))
              (by simp only [List.length_take]; omega) ((i+1) % d) _ _
              hJ hrecL hB2
            exact knnInv_perm d v k _ _ _ hperm hRes
          · rw [if_neg hpr]
            have hqne : (knn d ((i+1) % d) v
                (xs.drop (find_pivot i xs + 1))
                (b.add (sumOfSquares d (xs.getD (find_pivot i xs) []) v)
                  (xs.getD (find_pivot i xs) []))).q ≠ [] := by
              intro hq
              rw [maxKey_nil _ hq] at hpr
              exact hpr le_top
            have hkey := maxKey_of_ne _ hqne
            have hlt : qmax (knn d ((i+1) % d) v
                  (xs.drop (find_pivot i xs + 1))
                  (b.add (sumOfSquares d (xs.getD (find_pivot i xs) []) v)
                    (xs.getD (find_pivot i xs) []))).q
                < (axisVal v i
                    - axisVal (xs.getD (find_pivot i xs) []) i) ^ 2 := by
              by_contra hge
              refine hpr ?_
              rw [hkey]
              exact WithTop.coe_le_coe.mpr (by omega)
            have hmemP : xs.getD (find_pivot i xs) []
                ∈ (P ++ [xs.getD (find_pivot i xs) []])
                  ++ xs.drop (find_pivot i xs + 1) := by
              refine List.mem_append.mpr (Or.inl ?_)
              exact List.mem_append.mpr (Or.inr (List.mem_singleton_self _))
            have hfull2 : k ≤ ((P ++ [xs.getD (find_pivot i xs) []])
                ++ xs.drop (find_pivot i xs + 1)).length := by
              by_contra hlt2
              have hql := knnInv_length d v k _ _ hB2
              have hqlen : (knn d ((i+1) % d) v
                    (xs.drop (find_pivot i xs + 1))
                    (b.add
                      (sumOfSquares d (xs.getD (find_pivot i xs) []) v)
                      (xs.getD (find_pivot i xs) []))).q.length
                  = ((P ++ [xs.getD (find_pivot i xs) []])
                      ++ xs.drop (find_pivot i xs + 1)).length := by
                rw [hql, Nat.min_def]
                split <;> omega
              have hsndperm := List.Subperm.perm_of_length_le hB2.2.2.1
                (by rw [List.length_map]; omega)
              have hmemq : xs.getD (find_pivot i xs) []
                  ∈ (knn d ((i+1) % d) v (xs.drop (find_pivot i xs + 1))
                      (b.add
                        (sumOfSquares d (xs.getD (find_pivot i xs) []) v)
                        (xs.getD (find_pivot i xs) []))).q.map Prod.snd :=
                hsndperm.mem_iff.mpr hmemP
              obtain ⟨e, hem, hesnd⟩ := List.mem_map.mp hmemq
              have hek := hB2.2.1 e hem
              have hele := le_qmax _ e hem
              have hax := sq_axis_le_sumOfSquares d i hd hi
                (xs.getD (find_pivot i xs) []) v
              rw [hesnd] at hek
              omega
            have hgt : ∀ y ∈ xs.take (find_pivot i xs),
                ∀ a ∈ (sortLe intLe
                    (((P ++ [xs.getD (find_pivot i xs) []])
                      ++ xs.drop (find_pivot i xs + 1)).map
                      (fun z => sumOfSquares d z v))).take k,
                  a < sumOfSquares d y v := by
              intro y hy a ha
              have hamem : a ∈ (knn d ((i+1) % d) v
                  (xs.drop (find_pivot i xs + 1))
                  (b.add (sumOfSquares d (xs.getD (find_pivot i xs) []) v)
                    (xs.getD (find_pivot i xs) []))).q.map Prod.fst :=
                hB2.2.2.2.mem_iff.mpr ha
              obtain ⟨e, hem, hefst⟩ := List.mem_map.mp hamem
              have haq := le_qmax _ e hem
              rw [hefst] at haq
              have hyax := hN2 y hy
              simp only [lessNth, decide_eq_true_eq] at hyax hsl
              have hgeo : (axisVal v i
                    - axisVal (xs.getD (find_pivot i xs) []) i) ^ 2
                  ≤ (axisVal v i - axisVal y i) ^ 2 := by
                nlinarith [hyax, hsl]
              have hay := sq_axis_le_sumOfSquares d i hd hi y v
              omega
            have hAbs := knnInv_absorb_list d v k
              (xs.take (find_pivot i xs)) _ _ hB2 hfull2 hgt
            exact knnInv_perm d v k _ _ _ hperm hAbs

/-- C4: on a verified kd-sorted array with `k ≤ |A|`,
`kd_nearest_neighbors` emits exactly `k` elements of `A`; the multiset of
their squared distances to the probe is exactly the `k` smallest squared
distances over `A` (so the emitted elements are `k` nearest neighbors,
ties broken by the traversal), and they are emitted in the heap's pop
order, largest distance first. -/
theorem kd_nearest_neighbors_spec (d : Nat) (hd : 0 < d) (v : Point)
    (k : Nat) (xs : List Point) (hs : kd_is_sorted d 0 xs = true)
    (hk : k ≤ xs.length) :
    (kd_nearest_neighbors d v k xs).length = k
    ∧ (kd_nearest_neighbors d v k xs).Subperm xs
    ∧ ((kd_nearest_neighbors d v k xs).map
        (fun x => sumOfSquares d x v)).Perm
        ((sortLe intLe (xs.map (fun x => sumOfSquares d x v))).take k)
    ∧ (kd_nearest_neighbors d v k xs).Pairwise
        (fun a b => sumOfSquares d b v ≤ sumOfSquares d a v) := by
  have hInit : knnInv d v k [] (NBest.mk k []) := by
    refine ⟨rfl, by simp, List.nil_subperm, ?_⟩
    simp [sortLe]
  have hFin := knn_spec d hd v k xs.length xs le_rfl 0 (NBest.mk k []) []
    hd hs hInit
  rw [List.nil_append] at hFin
  have hqlen : (knn d 0 v xs (NBest.mk k [])).q.length = k := by
    rw [knnInv_length d v k xs _ hFin, Nat.min_def]
    split <;> omega
  obtain ⟨hn, hcons, hsub, hkeys⟩ := hFin
  have hout : kd_nearest_neighbors d v k xs
      = (sortLe (fun e f : Int × Point => decide (f.1 ≤ e.1))
          (knn d 0 v xs (NBest.mk k [])).q).map Prod.snd := rfl
  have hsp := sortLe_perm (fun e f : Int × Point => decide (f.1 ≤ e.1))
    (knn d 0 v xs (NBest.mk k [])).q
  refine ⟨?_, ?_, ?_, ?_⟩
  · rw [hout, List.length_map, sortLe_length, hqlen]
  · rw [hout]
    exact ((hsp.map Prod.snd).subperm).trans hsub
  · rw [hout, List.map_map]
    have hmc : (sortLe (fun e f : Int × Point => decide (f.1 ≤ e.1))
          (knn d 0 v xs (NBest.mk k [])).q).map
          ((fun x => sumOfSquares d x v) ∘ Prod.snd)
        = (sortLe (fun e f : Int × Point => decide (f.1 ≤ e.1))
            (knn d 0 v xs (NBest.mk k [])).q).map Prod.fst := by
      refine List.map_congr_left ?_
      intro e he
      have hem : e ∈ (knn d 0 v xs (NBest.mk k [])).q :=
        hsp.mem_iff.mp he
      exact (hcons e hem).symm
    rw [hmc]
    exact ((hsp.map Prod.fst).trans hkeys)
  · rw [hout]
    have htot : ∀ e f : Int × Point,
        decide (f.1 ≤ e.1) = true ∨ decide (e.1 ≤ f.1) = true := by
      intro e f
      by_cases h : f.1 ≤ e.1
      · exact Or.inl (decide_eq_true h)
      · exact Or.inr (decide_eq_true (by omega))
    have htr : ∀ e f g : Int × Point, decide (f.1 ≤ e.1) = true →
        decide (g.1 ≤ f.1) = true → decide (g.1 ≤ e.1) = true := by
      intro e f g h1 h2
      have g1 := of_decide_eq_true h1
      have g2 := of_decide_eq_true h2
      exact decide_eq_true (by omega)
    have hp := sortLe_pairwise (fun e f : Int × Point => decide (f.1 ≤ e.1))
      htot htr (knn d 0 v xs (NBest.mk k [])).q
    refine List.pairwise_map.mpr ?_
    refine hp.imp_of_mem ?_
    intro e f he hf hef
    have hde := hcons e (hsp.mem_iff.mp he)
    have hdf := hcons f (hsp.mem_iff.mp hf)
    have := of_decide_eq_true hef
    rw [hde, hdf] at this
    exact this

/-- Witness for C4 on a concrete verified array with `k = 2`. -/
theorem kd_nearest_neighbors_spec_witness :
    (kd_nearest_neighbors 2 [2,2] 2 [[0,0],[1,5],[5,1],[10,10]]).length = 2
    ∧ (kd_nearest_neighbors 2 [2,2] 2
        [[0,0],[1,5],[5,1],[10,10]]).Subperm [[0,0],[1,5],[5,1],[10,10]]
    ∧ ((kd_nearest_neighbors 2 [2,2] 2 [[0,0],[1,5],[5,1],[10,10]]).map
        (fun x => sumOfSquares 2 x [2,2])).Perm
        ((sortLe intLe (([[0,0],[1,5],[5,1],[10,10]] : List Point).map
          (fun x => sumOfSquares 2 x [2,2]))).take 2)
    ∧ (kd_nearest_neighbors 2 [2,2] 2
        [[0,0],[1,5],[5,1],[10,10]]).Pairwise
        (fun a b => sumOfSquares 2 b [2,2] ≤ sumOfSquares 2 a [2,2]) :=
  kd_nearest_neighbors_spec 2 (by decide) [2,2] 2
    [[0,0],[1,5],[5,1],[10,10]] (by decide) (by decide)

end Kdtools
